import Mathlib

/-! Shamir secret reconstruction (`CODE.cpp`): base decoding and interpolation.

A shallow embedding of `convertToDecimal`, `lagrangeInterpolation` and
`processTestCase`.

Modelling conventions
* `long long` / `int` values are `Int`s kept in range by `wrap64` / `wrap32`
  (two's complement wrap-around of every arithmetic result).
* `std::string` is `String`; its bytes are the `Char`s of `String.toList`.
  The loop index `int i = value.length() - 1` is assumed not to overflow
  (strings shorter than 2^31 bytes).
* `double` is IEEE 754 binary64 with round-to-nearest-even, modelled exactly
  by the type `Dbl` (sign, integer mantissa, binary exponent); every
  operation is rounded to that format (no extended intermediate precision).
* A call that does not return a value (an exception of `std::stoi`) is an
  `Except.error`; `processTestCase` itself always returns a `long long`.
* The conversion `(long long)` of a `double` outside the range of `long long`
  (or infinite, or NaN) is given the value of the x86-64 conversion
  instruction, `-2^63`.
* `std::map<string, pair<string, string>>` is the list of its entries in
  iteration order (ascending key).
-/

namespace Shamir

/-! ## Machine integers -/

/-- Two's complement reduction of an integer to the range of `long long`. -/
def wrap64 (z : Int) : Int := (z + 2 ^ 63) % 2 ^ 64 - 2 ^ 63

/-- Two's complement reduction of an integer to the range of `int`. -/
def wrap32 (z : Int) : Int := (z + 2 ^ 31) % 2 ^ 32 - 2 ^ 31

/-! ## `convertToDecimal` (CODE.cpp lines 27-58) -/

/-- Lines 36-45: the numeric value of a character, `none` for a character
that the loop skips with `continue`. -/
def digitValue (c : Char) : Option Int :=
  if '0'.toNat ≤ c.toNat ∧ c.toNat ≤ '9'.toNat then
    some ((c.toNat : Int) - '0'.toNat)
  else if 'A'.toNat ≤ c.toNat ∧ c.toNat ≤ 'Z'.toNat then
    some ((c.toNat : Int) - 'A'.toNat + 10)
  else if 'a'.toNat ≤ c.toNat ∧ c.toNat ≤ 'z'.toNat then
    some ((c.toNat : Int) - 'a'.toNat + 10)
  else
    none

/-- The body of the `for` loop of lines 32-55, run over the characters in the
order the loop visits them (rightmost first), threading `result` and `power`.
An out-of-range digit returns `-1` at once (line 50). -/
def convertLoop (base : Int) : List Char → Int → Int → Int
  | [], result, _ => result
  | c :: rest, result, power =>
    match digitValue c with
    | none => convertLoop base rest result power
    | some d =>
      if d ≥ base then -1
      else convertLoop base rest (wrap64 (result + wrap64 (d * power))) (wrap64 (power * base))

/-- The function `convertToDecimal(value, base)`. -/
def convertToDecimal (value : String) (base : Int) : Int :=
  convertLoop base value.toList.reverse 0 1

/-! ### Specification-side notions for the decoder -/

/-- A character that is an ASCII letter or digit. -/
def isAlnum (c : Char) : Bool := (digitValue c).isSome

/-- A character that is a digit of the given base: alphanumeric, with a digit
value below the base. -/
def validDigit (base : Int) (c : Char) : Bool :=
  match digitValue c with
  | some d => decide (d < base)
  | none => false

/-- The sum of `digit_i * base ^ i` over a list of characters given least
significant first, the first character having exponent `i`. -/
def positionalFrom (base : Int) : Nat → List Char → Int
  | _, [] => 0
  | i, c :: cs => (digitValue c).getD 0 * base ^ i + positionalFrom base (i + 1) cs

/-- The exact, unbounded positional value of a string: the sum over `i` of
`digit_i * base ^ i`, where `digit_0` is the rightmost character. -/
def exactValue (value : String) (base : Int) : Int :=
  positionalFrom base 0 value.toList.reverse

/-- The character used for a digit value: the decimal digits, then the lower
case letters for ten to thirty-five. -/
def digitChar (d : Nat) : Char :=
  if d < 10 then Char.ofNat ('0'.toNat + d) else Char.ofNat ('a'.toNat + (d - 10))

/-- The base-`b` digits of `n`, least significant first, with at most `fuel`
digits produced. -/
def encodeDigits (b : Nat) : Nat → Nat → List Char
  | 0, _ => []
  | fuel + 1, n => if n = 0 then [] else digitChar (n % b) :: encodeDigits b fuel (n / b)

/-- The standard base-`b` digit string of `n` (most significant digit first,
`"0"` for zero). -/
def encode (n b : Nat) : String :=
  if n = 0 then "0" else String.mk (encodeDigits b n n).reverse

/-- The relation between a character and the same character with its ASCII
case possibly switched. -/
def CaseSwitched (c c' : Char) : Prop :=
  c' = c ∨
  ('A'.toNat ≤ c.toNat ∧ c.toNat ≤ 'Z'.toNat ∧ c'.toNat = c.toNat + 32) ∨
  ('a'.toNat ≤ c.toNat ∧ c.toNat ≤ 'z'.toNat ∧ c.toNat = c'.toNat + 32)

/-! ## IEEE 754 binary64 (`double`) -/

/-- A `double`. The finite value `fin neg m e` is `(-1) ^ neg * m * 2 ^ e`.
Every operation below returns finite values in the canonical form of the
format: `m < 2 ^ 53`, `-1074 ≤ e`, and `2 ^ 52 ≤ m` unless `e = -1074`
(subnormal numbers and the two zeros `fin neg 0 (-1074)`). -/
inductive Dbl
  | fin (neg : Bool) (m : Nat) (e : Int)
  | inf (neg : Bool)
  | nan
  deriving DecidableEq

/-- The number of binary digits of `n`, with `fuel` bounding the recursion. -/
def bitLenAux : Nat → Nat → Nat
  | 0, _ => 0
  | fuel + 1, n => if n = 0 then 0 else bitLenAux fuel (n / 2) + 1

/-- The number of binary digits of `n` (`0` for `n = 0`). -/
def bitLen (n : Nat) : Nat := bitLenAux n n

/-- Rounding of the exact value `(-1) ^ neg * m * 2 ^ e` to the nearest
`double`, ties to the even mantissa; values of magnitude `2 ^ 1024` or more
after rounding become infinite. -/
def roundToDbl (neg : Bool) (m : Nat) (e : Int) : Dbl :=
  if m = 0 then Dbl.fin neg 0 (-1074)
  else
    -- the exponent of the last kept binary digit
    let e1 : Int := max (e + bitLen m - 53) (-1074)
    let mant : Nat :=
      if e1 ≤ e then m * 2 ^ (e - e1).toNat
      else
        let s := (e1 - e).toNat
        let q := m / 2 ^ s
        let r := m % 2 ^ s
        let half := 2 ^ (s - 1)
        if r > half ∨ (r = half ∧ q % 2 = 1) then q + 1 else q
    let mant2 : Nat := if mant = 2 ^ 53 then 2 ^ 52 else mant
    let e2 : Int := if mant = 2 ^ 53 then e1 + 1 else e1
    if mant2 = 0 then Dbl.fin neg 0 (-1074)
    else if e2 + bitLen mant2 > 1024 then Dbl.inf neg
    else Dbl.fin neg mant2 e2

namespace Dbl

/-- Positive zero, the literal `0.0`. -/
def zero : Dbl := fin false 0 (-1074)

/-- The conversions `(double)` of an `int` and of a `long long`. -/
def ofInt (z : Int) : Dbl := roundToDbl (decide (z < 0)) z.natAbs 0

/-- The product of two `double`s. -/
def mul : Dbl → Dbl → Dbl
  | nan, _ => nan
  | _, nan => nan
  | inf s, inf t => inf (xor s t)
  | inf s, fin t n _ => if n = 0 then nan else inf (xor s t)
  | fin s m _, inf t => if m = 0 then nan else inf (xor s t)
  | fin s m e, fin t n f => roundToDbl (xor s t) (m * n) (e + f)

/-- The quotient of two `double`s. For finite operands the quotient of the
mantissas is computed to more than 55 binary digits and a last digit records
whether the division left a remainder, which determines the rounding. -/
def div : Dbl → Dbl → Dbl
  | nan, _ => nan
  | _, nan => nan
  | inf _, inf _ => nan
  | inf s, fin t _ _ => inf (xor s t)
  | fin s _ _, inf t => fin (xor s t) 0 (-1074)
  | fin s m e, fin t n f =>
    if n = 0 then (if m = 0 then nan else inf (xor s t))
    else
      let k := bitLen n + 55
      let q := (m * 2 ^ k) / n
      let r := (m * 2 ^ k) % n
      roundToDbl (xor s t) (2 * q + (if r = 0 then 0 else 1)) (e - f - k - 1)

/-- The sum of two `double`s. -/
def add : Dbl → Dbl → Dbl
  | nan, _ => nan
  | _, nan => nan
  | inf s, inf t => if s = t then inf s else nan
  | inf s, fin _ _ _ => inf s
  | fin _ _ _, inf t => inf t
  | fin s m e, fin t n f =>
    let e0 := min e f
    let a : Int := (if s then -1 else 1) * (m * 2 ^ (e - e0).toNat : Nat)
    let b : Int := (if t then -1 else 1) * (n * 2 ^ (f - e0).toNat : Nat)
    let c := a + b
    if c = 0 then fin (s && t) 0 (-1074)
    else roundToDbl (decide (c < 0)) c.natAbs e0

/-- The library function `round`: the nearest integral value, halfway cases
away from zero. -/
def round : Dbl → Dbl
  | fin s m e =>
    if e ≥ 0 then fin s m e
    else
      let sh := (-e).toNat
      let q := m / 2 ^ sh
      let r := m % 2 ^ sh
      roundToDbl s (if 2 * r ≥ 2 ^ sh then q + 1 else q) 0
  | d => d

/-- The conversion `(long long)` of a `double`: truncation toward zero. When
the truncated value is not a `long long`, and for an infinite value or NaN,
the language standard fixes no result; the value taken here is the one that
the conversion instruction of x86-64 delivers, the smallest `long long`. -/
def toInt64 : Dbl → Int
  | fin s m e =>
    let mag : Nat := if e ≥ 0 then m * 2 ^ e.toNat else m / 2 ^ (-e).toNat
    let v : Int := if s then -(mag : Int) else mag
    if -2 ^ 63 ≤ v ∧ v < 2 ^ 63 then v else -2 ^ 63
  | _ => -2 ^ 63

end Dbl

/-! ## `lagrangeInterpolation` (CODE.cpp lines 66-85) -/

/-- Lines 72-79: the term of index `i`, starting from `(double) y_i` and
multiplied, for every `j ≠ i` in increasing order, by
`(double)(x - x_j) / (double)(x_i - x_j)`. -/
def lagrangeTerm (points : List (Int × Int)) (x : Int) (i : Nat) (pi : Int × Int) : Dbl :=
  points.enum.foldl
    (fun term jp =>
      if i ≠ jp.1 then
        term.mul ((Dbl.ofInt (wrap32 (x - jp.2.1))).div (Dbl.ofInt (wrap32 (pi.1 - jp.2.1))))
      else term)
    (Dbl.ofInt pi.2)

/-- The function `lagrangeInterpolation(points, x)`. -/
def lagrangeInterpolation (points : List (Int × Int)) (x : Int) : Dbl :=
  points.enum.foldl (fun result ip => result.add (lagrangeTerm points x ip.1 ip.2)) Dbl.zero

/-! ## `processTestCase` (CODE.cpp lines 94-139) -/

/-- The ways in which a call does not return a value: the two exceptions of
`std::stoi`. -/
inductive Fault
  | invalidArgument
  | outOfRange
  deriving DecidableEq

/-- Equality of results is decidable. -/
instance instDecidableEqResult {α : Type} [DecidableEq α] : DecidableEq (Except Fault α)
  | Except.ok a, Except.ok b =>
    if h : a = b then isTrue (congrArg Except.ok h)
    else isFalse (fun h2 => h (Except.ok.inj h2))
  | Except.error e, Except.error f =>
    if h : e = f then isTrue (congrArg Except.error h)
    else isFalse (fun h2 => h (Except.error.inj h2))
  | Except.ok _, Except.error _ => isFalse (fun h => Except.noConfusion h)
  | Except.error _, Except.ok _ => isFalse (fun h => Except.noConfusion h)

/-- White space in the sense of `isspace`. -/
def isSpace (c : Char) : Bool :=
  c.toNat = ' '.toNat ∨ ('\t'.toNat ≤ c.toNat ∧ c.toNat ≤ '\r'.toNat)

/-- The library function `std::stoi` in base ten: leading white space, an
optional sign, then the longest run of decimal digits; `invalid_argument`
without a digit, `out_of_range` when the value is not an `int`. -/
def stoi (s : String) : Except Fault Int :=
  let cs := s.toList.dropWhile isSpace
  let neg : Bool := match cs with
    | '-' :: _ => true
    | _ => false
  let body : List Char := match cs with
    | '-' :: r => r
    | '+' :: r => r
    | _ => cs
  let ds := body.takeWhile Char.isDigit
  if ds = [] then Except.error Fault.invalidArgument
  else
    let v : Int := ds.foldl (fun a c => 10 * a + ((c.toNat : Int) - '0'.toNat)) 0
    let w : Int := if neg then -v else v
    if w < -2 ^ 31 ∨ 2 ^ 31 ≤ w then Except.error Fault.outOfRange else Except.ok w

/-- An entry of the map `testData`: the key, then the base and the encoded
value. -/
abbrev Entry := String × String × String

/-- Lines 103-119: the points decoded from the entries in iteration order; an
entry whose decoded value is `-1` is skipped. -/
def decodePoints : List Entry → Except Fault (List (Int × Int))
  | [] => Except.ok []
  | (key, base, encodedValue) :: rest => do
    let x ← stoi key
    let b ← stoi base
    let y := convertToDecimal encodedValue b
    let points ← decodePoints rest
    if y = -1 then pure points else pure ((x, y) :: points)

/-- Lines 121-138 with the interpolation routine as a parameter: the size
check (the `int` `k` being converted to the unsigned type of `size()`), the
selection of the first `k` points, the evaluation at zero and the rounding. -/
def finishWith (interp : List (Int × Int) → Int → Dbl) (points : List (Int × Int))
    (k : Int) : Except Fault Int :=
  if (points.length : Int) < k % 2 ^ 64 then Except.ok (-1)
  else
    let selectedPoints := points.take k.toNat
    let secret := interp selectedPoints 0
    Except.ok secret.round.toInt64

/-- The function `processTestCase(testData, k, _)` with the interpolation routine
as a parameter. -/
def processTestCaseWith (interp : List (Int × Int) → Int → Dbl) (testData : List Entry)
    (k : Int) : Except Fault Int := do
  let points ← decodePoints testData
  finishWith interp points k

/-- The function `processTestCase(testData, k, _)`; the printed trace is left
out. -/
def processTestCase (testData : List Entry) (k : Int) : Except Fault Int :=
  processTestCaseWith lagrangeInterpolation testData k

/-! ### `std::map` and the data of `main` -/

/-- The order of `std::string` keys: lexicographic on the character codes. -/
def keyLt : List Char → List Char → Bool
  | [], [] => false
  | [], _ :: _ => true
  | _ :: _, [] => false
  | a :: as, b :: bs =>
    if a.toNat < b.toNat then true
    else if b.toNat < a.toNat then false
    else keyLt as bs

/-- Insertion of an entry into a map held as its ascending list of entries; an
entry whose key is present is not inserted. -/
def mapInsert (entry : Entry) : List Entry → List Entry
  | [] => [entry]
  | e :: rest =>
    if keyLt entry.1.toList e.1.toList then entry :: e :: rest
    else if keyLt e.1.toList entry.1.toList then e :: mapInsert entry rest
    else e :: rest

/-- The map built from an initializer list. -/
def mapOf (entries : List Entry) : List Entry :=
  entries.foldl (fun m e => mapInsert e m) []

/-- The map `testCase1` of `main` (lines 146-151). -/
def testCase1 : List Entry :=
  mapOf [("1", "10", "4"), ("2", "2", "111"), ("3", "10", "12"), ("6", "4", "213")]

/-- The map `testCase2` of `main` (lines 157-168). -/
def testCase2 : List Entry :=
  mapOf [("1", "6", "13444211440455345511"),
    ("2", "15", "aed7015a346d63"),
    ("3", "15", "6aeeb69631c227c"),
    ("4", "16", "e1b5e05623d881f"),
    ("5", "8", "316034514573652620673"),
    ("6", "3", "2122212201122002221120200210011020220200"),
    ("7", "3", "20120221122211000100210021102001201112121"),
    ("8", "6", "20220554335330240002224253"),
    ("9", "12", "45153788322a1255483"),
    ("10", "7", "1101613130313526312514143")]

/-- The value at `x` of the polynomial with the given coefficients, constant
term first. -/
def evalPoly : List Int → Int → Int
  | [], _ => 0
  | a :: rest, x => a + x * evalPoly rest x

/-- An entry whose key and base are both accepted by `std::stoi`. -/
def parses (e : Entry) : Bool :=
  match stoi e.1, stoi e.2.1 with
  | Except.ok _, Except.ok _ => true
  | _, _ => false

/-- An entry that decodes successfully: `convertToDecimal` does not return its
error value `-1` for it (the test of line 111). -/
def decodes (e : Entry) : Bool :=
  match stoi e.2.1 with
  | Except.ok b => decide (convertToDecimal e.2.2 b ≠ -1)
  | Except.error _ => false

/-- The point that line 116 stores for an entry whose key and base are
numbers. -/
def pointOf (e : Entry) : Int × Int :=
  match stoi e.1, stoi e.2.1 with
  | Except.ok x, Except.ok b => (x, convertToDecimal e.2.2 b)
  | _, _ => (0, 0)

/-- The points of the entries that decode, in iteration order. -/
def decodedPoints (testData : List Entry) : List (Int × Int) :=
  (testData.filter decodes).map pointOf

/-- An entry whose encoded value contains an alphanumeric character with a
digit value that is not below its base. -/
def hasInvalidDigit (e : Entry) : Bool :=
  match stoi e.2.1 with
  | Except.ok b =>
    e.2.2.toList.any (fun c =>
      match digitValue c with
      | some d => decide (b ≤ d)
      | none => false)
  | Except.error _ => false

/-- Line 138: the value returned for the interpolated `secret`. -/
def returned (secret : Dbl) : Except Fault Int :=
  Except.ok secret.round.toInt64

/-- The exact value at `x` of the Lagrange formula of the specification, the
sum over `i` of `y_i` times the product over `j ≠ i` of
`(x - x_j) / (x_i - x_j)`, in rational arithmetic. -/
def lagrangeExact (points : List (Int × Int)) (x : ℚ) : ℚ :=
  (points.enum.map (fun ip =>
    (ip.2.2 : ℚ) * ((points.enum.filter (fun jp => decide (jp.1 ≠ ip.1))).map
      (fun jp => (x - (jp.2.1 : ℚ)) / ((ip.2.1 : ℚ) - (jp.2.1 : ℚ)))).prod)).sum

/-- The keys of a map held as a list are strictly ascending. -/
def KeysAscending (m : List Entry) : Prop :=
  m.Pairwise (fun a b => keyLt a.1.toList b.1.toList = true)

namespace Dbl

/-- A finite `double` (neither infinite nor NaN). -/
def isFinite : Dbl → Bool
  | fin _ _ _ => true
  | _ => false

/-- The canonical form of the finite values of the format. -/
def Canon : Dbl → Prop
  | fin _ m e =>
    m < 2 ^ 53 ∧ -1074 ≤ e ∧ (m ≠ 0 → e + bitLen m ≤ 1024) ∧ (bitLen m = 53 ∨ e = -1074)
  | _ => True

/-- A finite `double` of magnitude below `2 ^ N`. -/
def Below (N : Int) : Dbl → Prop
  | fin _ m e => m = 0 ∨ e + bitLen m ≤ N
  | _ => False

/-- A zero of either sign. -/
def IsZero : Dbl → Prop
  | fin _ m e => m = 0 ∧ e = -1074
  | _ => False

/-- The exact rational value of a finite `double` (`0` for the others). -/
def toRat : Dbl → ℚ
  | fin s m e => (if s then -1 else 1) * (m : ℚ) * (2 : ℚ) ^ e
  | _ => 0

/-- The `double` `1.0`. -/
def one : Dbl := fin false (2 ^ 52) (-52)

end Dbl

instance instDecidableCaseSwitched (c c' : Char) : Decidable (CaseSwitched c c') := by
  unfold CaseSwitched
  infer_instance

/-! ## Lemmas on machine integers -/

theorem wrap64_emod (z : Int) : wrap64 z % 2 ^ 64 = z % 2 ^ 64 := by
  unfold wrap64; omega

theorem wrap64_congr {a b : Int} (h : a % 2 ^ 64 = b % 2 ^ 64) : wrap64 a = wrap64 b := by
  unfold wrap64; omega

theorem wrap64_of_range {z : Int} (h0 : -2 ^ 63 ≤ z) (h1 : z < 2 ^ 63) : wrap64 z = z := by
  unfold wrap64; omega

theorem wrap64_idem (z : Int) : wrap64 (wrap64 z) = wrap64 z :=
  wrap64_congr (wrap64_emod z)

theorem wrap64_modEq (z : Int) : wrap64 z ≡ z [ZMOD 2 ^ 64] := wrap64_emod z

/-! ## Lemmas on the decoder -/

theorem digitValue_bounds {c : Char} {d : Int} (h : digitValue c = some d) : 0 ≤ d ∧ d < 36 := by
  have h0 : '0'.toNat = 48 := rfl
  have h9 : '9'.toNat = 57 := rfl
  have hA : 'A'.toNat = 65 := rfl
  have hZ : 'Z'.toNat = 90 := rfl
  have ha : 'a'.toNat = 97 := rfl
  have hz : 'z'.toNat = 122 := rfl
  unfold digitValue at h
  rw [h0, h9, hA, hZ, ha, hz] at h
  split_ifs at h with h1 h2 h3 <;> simp at h <;> omega

theorem digitValue_caseSwitched {c c' : Char} (h : CaseSwitched c c') :
    digitValue c' = digitValue c := by
  have h0 : '0'.toNat = 48 := rfl
  have h9 : '9'.toNat = 57 := rfl
  have hA : 'A'.toNat = 65 := rfl
  have hZ : 'Z'.toNat = 90 := rfl
  have ha : 'a'.toNat = 97 := rfl
  have hz : 'z'.toNat = 122 := rfl
  unfold CaseSwitched at h
  rw [hA, hZ, ha, hz] at h
  rcases h with h | ⟨h1, h2, h3⟩ | ⟨h1, h2, h3⟩
  · rw [h]
  · unfold digitValue
    rw [h0, h9, hA, hZ, ha, hz, h3]
    split_ifs <;> first | omega | (simp; omega)
  · unfold digitValue
    rw [h0, h9, hA, hZ, ha, hz, h3]
    split_ifs <;> first | omega | (simp; omega)

theorem positionalFrom_succ (base : Int) (i : Nat) (cs : List Char) :
    positionalFrom base (i + 1) cs = base * positionalFrom base i cs := by
  induction cs generalizing i with
  | nil => simp [positionalFrom]
  | cons c cs ih =>
    simp only [positionalFrom]
    rw [ih (i + 1)]
    ring

theorem positionalFrom_nonneg {base : Int} (hb : 0 ≤ base) (i : Nat) (cs : List Char) :
    0 ≤ positionalFrom base i cs := by
  induction cs generalizing i with
  | nil => simp [positionalFrom]
  | cons c cs ih =>
    simp only [positionalFrom]
    have hd : 0 ≤ (digitValue c).getD 0 := by
      cases hc : digitValue c with
      | none => simp
      | some d => simpa using (digitValue_bounds hc).1
    have := ih (i + 1)
    positivity

/-- On a list of valid digits the loop computes the positional value modulo
`2 ^ 64`. -/
theorem convertLoop_valid (base : Int) (cs : List Char)
    (hv : ∀ c ∈ cs, validDigit base c = true) (r p : Int) (hr : wrap64 r = r) :
    convertLoop base cs r p = wrap64 (r + p * positionalFrom base 0 cs) := by
  induction cs generalizing r p with
  | nil => simp [convertLoop, positionalFrom, hr]
  | cons c cs ih =>
    have hc := hv c (List.mem_cons_self c cs)
    unfold validDigit at hc
    cases hd : digitValue c with
    | none => rw [hd] at hc; simp at hc
    | some d =>
      rw [hd] at hc
      have hlt : d < base := by simpa using hc
      simp only [convertLoop, hd, positionalFrom, Option.getD_some, pow_zero, mul_one]
      rw [if_neg (by omega)]
      rw [ih (fun c' hc' => hv c' (List.mem_cons_of_mem c hc')) _ _ (wrap64_idem _)]
      apply wrap64_congr
      rw [positionalFrom_succ]
      have h1 : wrap64 (r + wrap64 (d * p)) ≡ r + d * p [ZMOD 2 ^ 64] :=
        (wrap64_modEq _).trans ((Int.ModEq.refl r).add (wrap64_modEq _))
      have h2 : wrap64 (p * base) ≡ p * base [ZMOD 2 ^ 64] := wrap64_modEq _
      have h3 := h1.add (h2.mul_right (positionalFrom base 0 cs))
      have h4 : r + d * p + p * base * positionalFrom base 0 cs
          = r + p * (d + base * positionalFrom base 0 cs) := by ring
      rw [h4] at h3
      exact h3

/-- For valid digit strings the decoder returns the exact value reduced to the
range of `long long`. -/
theorem convertToDecimal_eq_wrap (value : String) (base : Int)
    (hv : ∀ c ∈ value.toList, validDigit base c = true) :
    convertToDecimal value base = wrap64 (exactValue value base) := by
  unfold convertToDecimal exactValue
  rw [convertLoop_valid base _ (fun c hc => hv c (List.mem_reverse.mp hc)) 0 1 (by decide)]
  simp

/-- The loop only looks at the digit values of the characters. -/
theorem convertLoop_caseSwitched (base : Int) {cs cs' : List Char}
    (h : List.Forall₂ CaseSwitched cs cs') (r p : Int) :
    convertLoop base cs' r p = convertLoop base cs r p := by
  induction h generalizing r p with
  | nil => rfl
  | cons hc _ ih =>
    simp only [convertLoop, digitValue_caseSwitched hc]
    cases digitValue _ with
    | none => exact ih r p
    | some d =>
      simp only
      split_ifs
      · rfl
      · exact ih _ _

/-- Once the loop meets an alphanumeric character whose value is not below the
base, it returns `-1`, whatever was accumulated before. -/
theorem convertLoop_invalid (base : Int) (cs : List Char)
    (h : ∃ c ∈ cs, ∃ d, digitValue c = some d ∧ base ≤ d) (r p : Int) :
    convertLoop base cs r p = -1 := by
  induction cs generalizing r p with
  | nil => simp at h
  | cons c cs ih =>
    obtain ⟨c0, hc0, d0, hd0, hb0⟩ := h
    cases hd : digitValue c with
    | none =>
      simp only [convertLoop, hd]
      rcases List.mem_cons.mp hc0 with rfl | hmem
      · rw [hd] at hd0; simp at hd0
      · exact ih ⟨c0, hmem, d0, hd0, hb0⟩ r p
    | some d =>
      simp only [convertLoop, hd]
      split_ifs with hge
      · rfl
      · rcases List.mem_cons.mp hc0 with rfl | hmem
        · rw [hd] at hd0
          simp at hd0
          omega
        · exact ih ⟨c0, hmem, d0, hd0, hb0⟩ _ _

/-- Characters that are not alphanumeric do not influence the loop. -/
theorem convertLoop_filter (base : Int) (cs : List Char) (r p : Int) :
    convertLoop base (cs.filter isAlnum) r p = convertLoop base cs r p := by
  induction cs generalizing r p with
  | nil => rfl
  | cons c cs ih =>
    cases hd : digitValue c with
    | none =>
      have : isAlnum c = false := by simp [isAlnum, hd]
      rw [List.filter_cons_of_neg (by simp [this])]
      simp only [convertLoop, hd]
      exact ih r p
    | some d =>
      have : isAlnum c = true := by simp [isAlnum, hd]
      rw [List.filter_cons_of_pos this]
      simp only [convertLoop, hd]
      split_ifs
      · rfl
      · exact ih _ _

theorem convertToDecimal_filter (value : String) (base : Int) :
    convertToDecimal (String.mk (value.toList.filter isAlnum)) base
      = convertToDecimal value base := by
  unfold convertToDecimal
  show convertLoop base (value.toList.filter isAlnum).reverse 0 1 = _
  rw [← List.filter_reverse, convertLoop_filter]

/-! ### The encoder and the round trip below `2 ^ 63` -/

theorem digitValue_digitChar (d : Nat) (h : d < 36) :
    digitValue (digitChar d) = some (d : Int) := by
  interval_cases d <;> decide

theorem encodeDigits_spec (b : Nat) (hb : 2 ≤ b) (hb2 : b ≤ 36) (fuel n : Nat)
    (hn : n ≤ fuel) :
    positionalFrom b 0 (encodeDigits b fuel n) = n
      ∧ ∀ c ∈ encodeDigits b fuel n, validDigit b c = true := by
  induction fuel generalizing n with
  | zero =>
    have : n = 0 := by omega
    subst this
    simp [encodeDigits, positionalFrom]
  | succ fuel ih =>
    by_cases h0 : n = 0
    · subst h0
      simp [encodeDigits, positionalFrom]
    · have hlt : n % b < b := Nat.mod_lt n (by omega)
      have hdiv : n / b ≤ fuel := by
        have : n / b < n := Nat.div_lt_self (by omega) (by omega)
        omega
      obtain ⟨ihv, ihd⟩ := ih (n / b) hdiv
      have hdc := digitValue_digitChar (n % b) (by omega)
      constructor
      · simp only [encodeDigits, if_neg h0, positionalFrom, hdc, Option.getD_some, pow_zero,
          mul_one]
        rw [positionalFrom_succ, ihv]
        have := Nat.mod_add_div n b
        exact_mod_cast this
      · intro c hc
        simp only [encodeDigits, if_neg h0, List.mem_cons] at hc
        rcases hc with rfl | hc
        · simp only [validDigit, hdc]
          have : ((n % b : Nat) : Int) < (b : Int) := by exact_mod_cast hlt
          simpa using this
        · exact ihd c hc

/-- Decoding the digit string of a number below `2 ^ 63` gives the number
back. -/
theorem convertToDecimal_encode (n b : Nat) (hb : 2 ≤ b ∧ b ≤ 36) (hn : n < 2 ^ 63) :
    convertToDecimal (encode n b) b = n := by
  obtain ⟨hv, hd⟩ := encodeDigits_spec b hb.1 hb.2 n n (le_refl n)
  have hvalid : ∀ c ∈ (encode n b).toList, validDigit b c = true := by
    unfold encode
    split_ifs with h0
    · intro c hc
      have hc0 : c = '0' := by simpa using hc
      subst hc0
      have h := digitValue_digitChar 0 (by decide)
      have h2 : digitChar 0 = '0' := by decide
      rw [h2] at h
      simp only [validDigit, h]
      have : (0 : Int) < b := by omega
      simpa using this
    · intro c hc
      exact hd c (List.mem_reverse.mp hc)
  have hexact : exactValue (encode n b) b = n := by
    unfold exactValue encode
    split_ifs with h0
    · subst h0
      have h := digitValue_digitChar 0 (by decide)
      have h2 : digitChar 0 = '0' := by decide
      rw [h2] at h
      show positionalFrom b 0 ['0'] = _
      simp [positionalFrom, h]
    · show positionalFrom b 0 ((encodeDigits b n n).reverse).reverse = _
      rw [List.reverse_reverse]
      exact hv
  rw [convertToDecimal_eq_wrap _ _ hvalid, hexact]
  exact wrap64_of_range (by omega) (by exact_mod_cast hn)

/-! ## Lemmas on `processTestCase` -/

/-- When every key and base is a number, the decoding loop returns one point
for each entry that decodes. -/
theorem decodePoints_length (testData : List Entry)
    (hp : ∀ e ∈ testData, parses e = true) :
    ∃ points, decodePoints testData = Except.ok points
      ∧ points.length = (testData.filter decodes).length := by
  induction testData with
  | nil => exact ⟨[], rfl, rfl⟩
  | cons e rest ih =>
    obtain ⟨points, hpts, hlen⟩ := ih (fun e' he' => hp e' (List.mem_cons_of_mem e he'))
    have he := hp e (List.mem_cons_self e rest)
    obtain ⟨key, base, encodedValue⟩ := e
    unfold parses at he
    simp only at he
    cases hx : stoi key with
    | error f => rw [hx] at he; simp at he
    | ok x =>
      cases hb : stoi base with
      | error f => rw [hx, hb] at he; simp at he
      | ok b =>
        by_cases hy : convertToDecimal encodedValue b = -1
        · refine ⟨points, ?_, ?_⟩
          · simp [decodePoints, hx, hb, hpts, hy, bind, Except.bind, pure, Except.pure]
          · have hd : decodes (key, base, encodedValue) = false := by
              simp [decodes, hb, hy]
            rw [List.filter_cons_of_neg (by simp [hd])]
            exact hlen
        · refine ⟨(x, convertToDecimal encodedValue b) :: points, ?_, ?_⟩
          · simp [decodePoints, hx, hb, hpts, hy, bind, Except.bind, pure, Except.pure]
          · have hd : decodes (key, base, encodedValue) = true := by
              simp [decodes, hb, hy]
            rw [List.filter_cons_of_pos hd]
            simp [hlen]

/-! ## The claims -/

/-- C1 (fails on the code): for `k = 1` and the constant polynomial
`f(x) = 2^53 + 1 = 9007199254740993`, the share `(1, f(1))` is interpolated in
`double` arithmetic to `2^53`, so the rounded result `9007199254740992` is not
`f(0)`. The same happens for `k = 2` and `g(x) = 2^53 + 1 + x` with the shares
at `x = 1` and `x = 2`. -/
theorem lagrange_rounded_misses_constant_term :
    evalPoly [9007199254740993] 1 = 9007199254740993
    ∧ evalPoly [9007199254740993] 0 = 9007199254740993
    ∧ (lagrangeInterpolation [(1, 9007199254740993)] 0).round.toInt64 = 9007199254740992
    ∧ processTestCase [("1", "10", "9007199254740993")] 1 = Except.ok 9007199254740992
    ∧ evalPoly [9007199254740993, 1] 1 = 9007199254740994
    ∧ evalPoly [9007199254740993, 1] 2 = 9007199254740995
    ∧ processTestCase [("1", "10", "9007199254740994"), ("2", "10", "9007199254740995")] 2
        = Except.ok 9007199254740992 := by
  decide!

/-- C2 (fails on the code): share 7 of `testCase2` in `main` consists of valid
base-3 digits, its exact positional value is `26709394976508342463`, and
`convertToDecimal` returns `8262650902798790847`, the value reduced modulo
`2^64`. -/
theorem convertToDecimal_truncates_testCase2_share :
    (∀ c ∈ "20120221122211000100210021102001201112121".toList, validDigit 3 c = true)
    ∧ exactValue "20120221122211000100210021102001201112121" 3 = 26709394976508342463
    ∧ convertToDecimal "20120221122211000100210021102001201112121" 3 = 8262650902798790847 := by
  decide!

/-- C3: for the map `testCase1` of `main` and `k = 3`, the entries are visited
in the order of the keys 1, 2, 3, 6, the decoded points are (1,4), (2,7),
(3,12), (6,39), and the list that `processTestCase` hands to the interpolation
routine is exactly (1,4), (2,7), (3,12): whatever the routine is, the result
is the value returned for the routine applied to these three points at 0.
With `lagrangeInterpolation` the `double` computed is exactly `3.0` and
`processTestCase` returns 3, which is the constant term of `x^2 + 3`, the only
polynomial of degree at most two through (1,4), (2,7), (3,12). -/
theorem processTestCase_testCase1 :
    testCase1.map (fun e => e.1) = ["1", "2", "3", "6"]
    ∧ decodePoints testCase1 = Except.ok [(1, 4), (2, 7), (3, 12), (6, 39)]
    ∧ (∀ interp : List (Int × Int) → Int → Dbl,
        processTestCaseWith interp testCase1 3
          = returned (interp [(1, 4), (2, 7), (3, 12)] 0))
    ∧ lagrangeInterpolation [(1, 4), (2, 7), (3, 12)] 0 = Dbl.ofInt 3
    ∧ (Dbl.ofInt 3).round.toInt64 = 3
    ∧ processTestCase testCase1 3 = Except.ok 3
    ∧ (evalPoly [3, 0, 1] 1 = 4 ∧ evalPoly [3, 0, 1] 2 = 7 ∧ evalPoly [3, 0, 1] 3 = 12)
    ∧ (∀ a0 a1 a2 : Int, evalPoly [a0, a1, a2] 1 = 4 → evalPoly [a0, a1, a2] 2 = 7 →
        evalPoly [a0, a1, a2] 3 = 12 → a0 = 3) := by
  refine ⟨by decide!, by decide!, ?_, by decide!, by decide!, by decide!, by decide!, ?_⟩
  · intro interp
    have hdec : decodePoints testCase1 = Except.ok [(1, 4), (2, 7), (3, 12), (6, 39)] := by
      decide!
    have hguard : ¬ ((([(1, 4), (2, 7), (3, 12), (6, 39)] : List (Int × Int)).length : Int)
        < 3 % 2 ^ 64) := by decide
    simp only [processTestCaseWith, hdec, bind, Except.bind, finishWith, returned,
      if_neg hguard]
    rfl
  · intro a0 a1 a2 h1 h2 h3
    simp only [evalPoly] at h1 h2 h3
    omega

/-- Witness of C3: the uniqueness part applied to the coefficients of
`x^2 + 3`. -/
theorem processTestCase_testCase1_witness : (3 : Int) = 3 :=
  processTestCase_testCase1.2.2.2.2.2.2.2 3 0 1 (by decide) (by decide) (by decide)

/-- C4 (fails on the code): the base-10 digit string of `n = 2^63` is
`"9223372036854775808"`, and decoding it returns `-2^63`, not `n`. -/
theorem roundtrip_fails_at_two_pow_63 :
    encode (2 ^ 63) 10 = "9223372036854775808"
    ∧ convertToDecimal (encode (2 ^ 63) 10) 10 = -9223372036854775808 := by
  decide!

/-- C5: `convertToDecimal("e1b5e05623d881f", 16)` is the exact value
`0xE1B5E05623D881F`; and for every base from 2 to 36 and every string of
valid digits of that base whose exact positional value is below `2^63`,
`convertToDecimal` returns that exact value (with wrap-around arithmetic, so
also when `power` wraps). -/
theorem convertToDecimal_exact_below_two_pow_63 (b : Int) (s : String)
    (hb : 2 ≤ b ∧ b ≤ 36) (hv : ∀ c ∈ s.toList, validDigit b c = true)
    (hlt : exactValue s b < 2 ^ 63) :
    convertToDecimal "e1b5e05623d881f" 16 = 0xE1B5E05623D881F
    ∧ convertToDecimal s b = exactValue s b := by
  refine ⟨by decide!, ?_⟩
  rw [convertToDecimal_eq_wrap s b hv]
  have h0 : 0 ≤ exactValue s b := positionalFrom_nonneg (by omega) 0 _
  exact wrap64_of_range (by omega) hlt

/-- Witness of C5: sixteen hexadecimal digits of value `2^63 - 1`; `power`
wraps to zero in the last iteration. -/
theorem convertToDecimal_exact_below_two_pow_63_witness :
    (∀ c ∈ "7fffffffffffffff".toList, validDigit 16 c = true)
    ∧ exactValue "7fffffffffffffff" 16 < 2 ^ 63
    ∧ convertToDecimal "7fffffffffffffff" 16 = exactValue "7fffffffffffffff" 16 :=
  ⟨by decide!, by decide!,
    (convertToDecimal_exact_below_two_pow_63 16 "7fffffffffffffff" (by decide) (by decide!)
      (by decide!)).2⟩

/-- C6: for every base and every string, switching the case of any of the
ASCII letters of the string does not change the result of `convertToDecimal`
(the error value `-1` included). -/
theorem convertToDecimal_case_invariant (base : Int) (s s' : String)
    (h : List.Forall₂ CaseSwitched s.toList s'.toList) :
    convertToDecimal s base = convertToDecimal s' base := by
  unfold convertToDecimal
  exact (convertLoop_caseSwitched base (List.rel_reverse h) 0 1).symm

/-- Witness of C6: `"aB9z"` and `"Ab9z"` in base 16, where both calls fail. -/
theorem convertToDecimal_case_invariant_witness :
    List.Forall₂ CaseSwitched "aB9z".toList "Ab9z".toList
    ∧ convertToDecimal "aB9z" 16 = convertToDecimal "Ab9z" 16 :=
  have h : List.Forall₂ CaseSwitched "aB9z".toList "Ab9z".toList :=
    List.Forall₂.cons (by decide) (List.Forall₂.cons (by decide)
      (List.Forall₂.cons (by decide) (List.Forall₂.cons (by decide) List.Forall₂.nil)))
  ⟨h, convertToDecimal_case_invariant 16 "aB9z" "Ab9z" h⟩

/-- C7: for every base and every string that contains, at any position, an
alphanumeric character whose digit value is at least the base,
`convertToDecimal` returns the error value `-1`. -/
theorem convertToDecimal_invalid_digit (base : Int) (s : String)
    (h : ∃ c ∈ s.toList, ∃ d, digitValue c = some d ∧ base ≤ d) :
    convertToDecimal s base = -1 := by
  unfold convertToDecimal
  obtain ⟨c, hc, d, hd, hb⟩ := h
  exact convertLoop_invalid base _ ⟨c, List.mem_reverse.mpr hc, d, hd, hb⟩ 0 1

/-- Witness of C7: `"G"` in base 10. -/
theorem convertToDecimal_invalid_digit_witness :
    (∃ c ∈ "G".toList, ∃ d, digitValue c = some d ∧ (10 : Int) ≤ d)
    ∧ convertToDecimal "G" 10 = -1 :=
  have h : ∃ c ∈ "G".toList, ∃ d, digitValue c = some d ∧ (10 : Int) ≤ d :=
    ⟨'G', by decide, 16, by decide, by decide⟩
  ⟨h, convertToDecimal_invalid_digit 10 "G" h⟩

/-- C8 as stated fails: `"1-2"` contains the character `-`, which is not
alphanumeric, the base 10 is in range, and `convertToDecimal` returns the
number 12, not the error value. -/
theorem convertToDecimal_skips_dash :
    ((2 : Int) ≤ 10 ∧ (10 : Int) ≤ 36)
    ∧ (∃ c ∈ "1-2".toList, isAlnum c = false)
    ∧ convertToDecimal "1-2" 10 = 12
    ∧ convertToDecimal "1-2" 10 ≠ -1 :=
  ⟨by decide, ⟨'-', by decide, by decide⟩, by decide, by decide⟩

/-- C8 amended: for every base from 2 to 36 and every string that contains a
character that is not an ASCII letter or digit, `convertToDecimal` skips such
characters: it returns what it returns for the string with all of them
deleted. -/
theorem convertToDecimal_ignores_non_alnum (b : Int) (s : String)
    (_hb : 2 ≤ b ∧ b ≤ 36) (_h : ∃ c ∈ s.toList, isAlnum c = false) :
    convertToDecimal s b = convertToDecimal (String.mk (s.toList.filter isAlnum)) b :=
  (convertToDecimal_filter s b).symm

/-- Witness of C8 amended: `"1-2"` in base 10 decodes like `"12"`. -/
theorem convertToDecimal_ignores_non_alnum_witness :
    (∃ c ∈ "1-2".toList, isAlnum c = false)
    ∧ convertToDecimal "1-2" 10 = convertToDecimal (String.mk ("1-2".toList.filter isAlnum)) 10 :=
  have h : ∃ c ∈ "1-2".toList, isAlnum c = false := ⟨'-', by decide, by decide⟩
  ⟨h, convertToDecimal_ignores_non_alnum 10 "1-2" (by decide) h⟩

/-- C9 (fails on the code): `"18446744073709551615"` consists of valid decimal
digits only, and `convertToDecimal` returns for it `-1`, the value it returns
on a decode error. -/
theorem convertToDecimal_valid_digits_give_error_value :
    ((2 : Int) ≤ 10 ∧ (10 : Int) ≤ 36)
    ∧ (∀ c ∈ "18446744073709551615".toList, validDigit 10 c = true)
    ∧ exactValue "18446744073709551615" 10 = 2 ^ 64 - 1
    ∧ convertToDecimal "18446744073709551615" 10 = -1 := by
  decide!

/-- C10: for every map whose keys and bases are numbers and every `k` from 1
to the largest `int`, if fewer than `k` entries decode successfully then
`processTestCase` returns `-1`, and it does so whatever the interpolation
routine is: the routine has no part in the result. -/
theorem processTestCase_insufficient (testData : List Entry) (k : Int)
    (hp : ∀ e ∈ testData, parses e = true) (hk : 1 ≤ k) (hk2 : k < 2 ^ 31)
    (hlt : ((testData.filter decodes).length : Int) < k) :
    processTestCase testData k = Except.ok (-1)
    ∧ ∀ interp, processTestCaseWith interp testData k = Except.ok (-1) := by
  obtain ⟨points, hpts, hlen⟩ := decodePoints_length testData hp
  have key : ∀ interp, processTestCaseWith interp testData k = Except.ok (-1) := by
    intro interp
    have hmod : k % 2 ^ 64 = k := Int.emod_eq_of_lt (by omega) (by omega)
    simp only [processTestCaseWith, hpts, bind, Except.bind, finishWith, hmod, hlen]
    rw [if_pos hlt]
  exact ⟨key lagrangeInterpolation, key⟩

/-- Witness of C10: the four entries of `testCase1` with `k = 5`. -/
theorem processTestCase_insufficient_witness :
    (∀ e ∈ testCase1, parses e = true)
    ∧ ((testCase1.filter decodes).length : Int) < 5
    ∧ processTestCase testCase1 5 = Except.ok (-1) :=
  ⟨by decide!, by decide!,
    (processTestCase_insufficient testCase1 5 (by decide!) (by decide) (by decide)
      (by decide!)).1⟩

/-! ## Further lemmas on `processTestCase` -/

theorem finishWith_eq_returned (interp : List (Int × Int) → Int → Dbl)
    (points : List (Int × Int)) (k : Int) (h : ¬ (points.length : Int) < k % 2 ^ 64) :
    finishWith interp points k = returned (interp (points.take k.toNat) 0) := by
  unfold finishWith returned
  simp only [if_neg h]

/-- When every key and base is a number, the decoding loop returns the points
of the entries that decode, in iteration order. -/
theorem decodePoints_eq (testData : List Entry) (hp : ∀ e ∈ testData, parses e = true) :
    decodePoints testData = Except.ok (decodedPoints testData) := by
  induction testData with
  | nil => rfl
  | cons e rest ih =>
    have hrest := ih (fun e' he' => hp e' (List.mem_cons_of_mem e he'))
    have he := hp e (List.mem_cons_self e rest)
    obtain ⟨key, base, encodedValue⟩ := e
    unfold parses at he
    simp only at he
    cases hx : stoi key with
    | error f => rw [hx] at he; simp at he
    | ok x =>
      cases hb : stoi base with
      | error f => rw [hx, hb] at he; simp at he
      | ok b =>
        by_cases hy : convertToDecimal encodedValue b = -1
        · have hd : decodes (key, base, encodedValue) = false := by
            simp [decodes, hb, hy]
          simp only [decodedPoints] at hrest ⊢
          rw [List.filter_cons_of_neg (by simp [hd])]
          simp [decodePoints, hx, hb, hrest, hy, bind, Except.bind, pure, Except.pure]
        · have hd : decodes (key, base, encodedValue) = true := by
            simp [decodes, hb, hy]
          simp only [decodedPoints] at hrest ⊢
          rw [List.filter_cons_of_pos hd]
          simp [decodePoints, hx, hb, hrest, hy, bind, Except.bind, pure, Except.pure, pointOf]

theorem decodedPoints_length (testData : List Entry) :
    (decodedPoints testData).length = (testData.filter decodes).length := by
  simp [decodedPoints]

theorem decodedPoints_length_le (testData : List Entry) :
    (decodedPoints testData).length ≤ testData.length := by
  rw [decodedPoints_length]
  exact List.length_filter_le _ _

/-- The result of `processTestCase` in terms of the entries. -/
theorem processTestCaseWith_eq (interp : List (Int × Int) → Int → Dbl) (testData : List Entry)
    (k : Int) (hp : ∀ e ∈ testData, parses e = true) :
    processTestCaseWith interp testData k = finishWith interp (decodedPoints testData) k := by
  simp [processTestCaseWith, decodePoints_eq testData hp, bind, Except.bind]

/-- An entry with an out-of-range digit does not decode. -/
theorem decodes_of_hasInvalidDigit {e : Entry} (h : hasInvalidDigit e = true) :
    decodes e = false := by
  obtain ⟨key, base, encodedValue⟩ := e
  unfold hasInvalidDigit at h
  unfold decodes
  simp only at h ⊢
  cases hb : stoi base with
  | error f => rfl
  | ok b =>
    rw [hb] at h
    simp only [List.any_eq_true] at h
    obtain ⟨c, hc, hcd⟩ := h
    have hinv : convertToDecimal encodedValue b = -1 := by
      unfold convertToDecimal
      cases hd : digitValue c with
      | none => rw [hd] at hcd; simp at hcd
      | some d =>
        rw [hd] at hcd
        exact convertLoop_invalid b _ ⟨c, List.mem_reverse.mpr hc, d, hd, by simpa using hcd⟩ 0 1
    simp [hinv]

theorem filter_decodes_filter_invalid (testData : List Entry) :
    (testData.filter (fun e => !hasInvalidDigit e)).filter decodes = testData.filter decodes := by
  rw [List.filter_filter]
  apply List.filter_congr
  intro e _
  cases h : hasInvalidDigit e with
  | false => simp
  | true => simp [decodes_of_hasInvalidDigit h]

/-- The decoding loop returns at most one point for each entry. -/
theorem decodePoints_length_le (testData : List Entry) (points : List (Int × Int))
    (h : decodePoints testData = Except.ok points) : points.length ≤ testData.length := by
  induction testData generalizing points with
  | nil =>
    simp only [decodePoints] at h
    cases h
    simp
  | cons e rest ih =>
    obtain ⟨key, base, encodedValue⟩ := e
    simp only [decodePoints, bind, Except.bind] at h
    cases hx : stoi key with
    | error f => rw [hx] at h; simp at h
    | ok x =>
      cases hb : stoi base with
      | error f => rw [hx, hb] at h; simp at h
      | ok b =>
        cases hr : decodePoints rest with
        | error f => rw [hx, hb, hr] at h; simp at h
        | ok pts =>
          rw [hx, hb, hr] at h
          have := ih pts hr
          simp only [pure, Except.pure] at h
          split_ifs at h <;> cases h <;> simp <;> omega

/-! ## The order of the map -/

theorem keyLt_trans (a b c : List Char) (hab : keyLt a b = true) (hbc : keyLt b c = true) :
    keyLt a c = true := by
  induction a generalizing b c with
  | nil =>
    cases b with
    | nil => simp [keyLt] at hab
    | cons y ys =>
      cases c with
      | nil => simp [keyLt] at hbc
      | cons z zs => simp [keyLt]
  | cons x xs ih =>
    cases b with
    | nil => simp [keyLt] at hab
    | cons y ys =>
      cases c with
      | nil => simp [keyLt] at hbc
      | cons z zs =>
        simp only [keyLt] at hab hbc ⊢
        split_ifs at hab hbc ⊢ <;> first | rfl | omega | simp at hab | simp at hbc | exact ih ys zs hab hbc

theorem mem_mapInsert {entry x : Entry} {m : List Entry} (h : x ∈ mapInsert entry m) :
    x = entry ∨ x ∈ m := by
  induction m with
  | nil => simpa [mapInsert] using h
  | cons e rest ih =>
    simp only [mapInsert] at h
    split_ifs at h
    · rcases List.mem_cons.mp h with h1 | h1
      · exact Or.inl h1
      · exact Or.inr h1
    · rcases List.mem_cons.mp h with h1 | h1
      · exact Or.inr (h1 ▸ List.mem_cons_self _ _)
      · rcases ih h1 with h2 | h2
        · exact Or.inl h2
        · exact Or.inr (List.mem_cons_of_mem _ h2)
    · exact Or.inr h

theorem keysAscending_mapInsert (entry : Entry) (m : List Entry) (h : KeysAscending m) :
    KeysAscending (mapInsert entry m) := by
  induction m with
  | nil => simp [mapInsert, KeysAscending]
  | cons e rest ih =>
    unfold KeysAscending at h ih ⊢
    obtain ⟨h1, h2⟩ := List.pairwise_cons.mp h
    simp only [mapInsert]
    split_ifs with hlt hgt
    · refine List.pairwise_cons.mpr ⟨?_, h⟩
      intro x hx
      rcases List.mem_cons.mp hx with rfl | hx
      · exact hlt
      · exact keyLt_trans _ _ _ hlt (h1 x hx)
    · refine List.pairwise_cons.mpr ⟨?_, ih h2⟩
      intro x hx
      rcases mem_mapInsert hx with rfl | hx
      · exact hgt
      · exact h1 x hx
    · exact h

/-- A map built by `mapOf` is iterated in strictly ascending order of its keys. -/
theorem keysAscending_mapOf (entries : List Entry) : KeysAscending (mapOf entries) := by
  have key : ∀ (l acc : List Entry), KeysAscending acc →
      KeysAscending (l.foldl (fun m e => mapInsert e m) acc) := by
    intro l
    induction l with
    | nil => intro acc h; exact h
    | cons e rest ih =>
      intro acc h
      exact ih _ (keysAscending_mapInsert e acc h)
  exact key entries [] List.Pairwise.nil

/-! ## The claims on selection and failure results -/

/-- C13 as stated fails: all ten shares of `testCase2` decode, and with `k = 7`
the selected points have `x = 1, 10, 2, 3, 4, 5, 6`, not `1, ..., 7`. -/
theorem testCase2_selection_not_smallest_x :
    decodePoints testCase2 = Except.ok (decodedPoints testCase2)
    ∧ (testCase2.filter decodes).length = 10
    ∧ ((decodedPoints testCase2).take 7).map Prod.fst = [1, 10, 2, 3, 4, 5, 6]
    ∧ ((decodedPoints testCase2).take 7).map Prod.fst ≠ [1, 2, 3, 4, 5, 6, 7] := by
  decide!

/-- C13 amended: for every map (built from any initializer list) whose keys and
bases are numbers and in which more than `k` shares decode, the entries are
iterated in ascending lexicographic order of the key strings, and the points
passed to the interpolation routine are the points of the first `k` entries
that decode, in that order. -/
theorem selected_points_first_k_in_key_order (entries : List Entry) (k : Int)
    (hp : ∀ e ∈ mapOf entries, parses e = true) (hk : 1 ≤ k ∧ k < 2 ^ 31)
    (hmore : (k : Int) < (((mapOf entries).filter decodes).length : Int)) :
    KeysAscending (mapOf entries)
    ∧ ∀ interp, processTestCaseWith interp (mapOf entries) k
        = returned (interp ((((mapOf entries).filter decodes).take k.toNat).map pointOf) 0) := by
  refine ⟨keysAscending_mapOf entries, fun interp => ?_⟩
  have hmod : k % 2 ^ 64 = k := Int.emod_eq_of_lt (by omega) (by omega)
  rw [processTestCaseWith_eq interp _ k hp, finishWith_eq_returned]
  · rw [decodedPoints, List.map_take]
  · rw [hmod, decodedPoints_length]
    omega

/-- Witness of C13 amended: `testCase2` with `k = 7`. -/
theorem selected_points_first_k_in_key_order_witness :
    KeysAscending testCase2
    ∧ ∀ interp, processTestCaseWith interp testCase2 7
        = returned (interp (((testCase2.filter decodes).take 7).map pointOf) 0) :=
  selected_points_first_k_in_key_order
    [("1", "6", "13444211440455345511"),
      ("2", "15", "aed7015a346d63"),
      ("3", "15", "6aeeb69631c227c"),
      ("4", "16", "e1b5e05623d881f"),
      ("5", "8", "316034514573652620673"),
      ("6", "3", "2122212201122002221120200210011020220200"),
      ("7", "3", "20120221122211000100210021102001201112121"),
      ("8", "6", "20220554335330240002224253"),
      ("9", "12", "45153788322a1255483"),
      ("10", "7", "1101613130313526312514143")] 7 (by decide!) (by decide) (by decide!)

/-- C14 as stated fails: the shares (1, base 10 "0") and (2, base 10 "1") both
decode, the line through (1,0) and (2,1) has constant term `-1`, and
`processTestCase` with `k = 2` returns `-1`, the value it returns on
failure. -/
theorem processTestCase_secret_equals_failure_value :
    ((mapOf [("1", "10", "0"), ("2", "10", "1")]).filter decodes).length = 2
    ∧ decodePoints (mapOf [("1", "10", "0"), ("2", "10", "1")]) = Except.ok [(1, 0), (2, 1)]
    ∧ evalPoly [-1, 1] 1 = 0 ∧ evalPoly [-1, 1] 2 = 1
    ∧ processTestCase (mapOf [("1", "10", "0"), ("2", "10", "1")]) 2 = Except.ok (-1)
    ∧ processTestCase (mapOf [("1", "10", "0")]) 2 = Except.ok (-1) := by
  decide!

/-- C14 amended: for every map whose keys and bases are numbers and in which at
least `k` shares decode, `processTestCase` returns the failure value `-1`
exactly when the interpolation of the first `k` decoded points, rounded, is
`-1`. -/
theorem processTestCase_eq_minus_one_iff (testData : List Entry) (k : Int)
    (hp : ∀ e ∈ testData, parses e = true) (hk : 1 ≤ k ∧ k < 2 ^ 31)
    (hge : k ≤ ((testData.filter decodes).length : Int)) :
    processTestCase testData k = Except.ok (-1)
      ↔ (lagrangeInterpolation ((decodedPoints testData).take k.toNat) 0).round.toInt64
          = -1 := by
  have hmod : k % 2 ^ 64 = k := Int.emod_eq_of_lt (by omega) (by omega)
  unfold processTestCase
  rw [processTestCaseWith_eq _ _ k hp, finishWith_eq_returned]
  · unfold returned
    constructor
    · intro h
      exact Except.ok.inj h
    · intro h
      rw [h]
  · rw [hmod, decodedPoints_length]
    omega

/-- Witness of C14 amended: the shares (1, "0") and (2, "1") with `k = 2`. -/
theorem processTestCase_eq_minus_one_iff_witness :
    processTestCase (mapOf [("1", "10", "0"), ("2", "10", "1")]) 2 = Except.ok (-1)
      ↔ (lagrangeInterpolation
          ((decodedPoints (mapOf [("1", "10", "0"), ("2", "10", "1")])).take 2) 0).round.toInt64
          = -1 :=
  processTestCase_eq_minus_one_iff (mapOf [("1", "10", "0"), ("2", "10", "1")]) 2
    (by decide!) (by decide) (by decide!)

/-- C15: for every map whose keys and bases are numbers and every `k`,
`processTestCase` returns the same on the map and on the map without the
shares whose encoded value contains a digit that is not below the base; and no
decoded point has `y = -1`. -/
theorem processTestCase_without_invalid_shares (testData : List Entry) (k : Int)
    (hp : ∀ e ∈ testData, parses e = true) :
    processTestCase testData k
        = processTestCase (testData.filter (fun e => !hasInvalidDigit e)) k
    ∧ ∀ points, decodePoints testData = Except.ok points → ∀ p ∈ points, p.2 ≠ -1 := by
  constructor
  · have hp2 : ∀ e ∈ testData.filter (fun e => !hasInvalidDigit e), parses e = true :=
      fun e he => hp e (List.mem_of_mem_filter he)
    unfold processTestCase
    rw [processTestCaseWith_eq _ _ k hp, processTestCaseWith_eq _ _ k hp2]
    unfold decodedPoints
    rw [filter_decodes_filter_invalid]
  · intro points hpts p hmem
    rw [decodePoints_eq testData hp] at hpts
    cases hpts
    unfold decodedPoints at hmem
    obtain ⟨e, he, rfl⟩ := List.mem_map.mp hmem
    have hpe := hp e (List.mem_of_mem_filter he)
    have hde := (List.mem_filter.mp he).2
    obtain ⟨key, base, encodedValue⟩ := e
    unfold parses at hpe
    unfold decodes at hde
    unfold pointOf
    simp only at hpe hde ⊢
    cases hx : stoi key with
    | error f => rw [hx] at hpe; simp at hpe
    | ok x =>
      cases hb : stoi base with
      | error f => rw [hb] at hde; simp at hde
      | ok b =>
        rw [hb] at hde
        simpa using hde

/-- Witness of C15: the map `testCase1` with one more share, `"9"` in base 8. -/
theorem processTestCase_without_invalid_shares_witness :
    processTestCase
        (mapOf [("1", "10", "4"), ("2", "2", "111"), ("3", "10", "12"), ("4", "8", "9")]) 3
      = processTestCase
        ((mapOf [("1", "10", "4"), ("2", "2", "111"), ("3", "10", "12"),
          ("4", "8", "9")]).filter (fun e => !hasInvalidDigit e)) 3 :=
  (processTestCase_without_invalid_shares
    (mapOf [("1", "10", "4"), ("2", "2", "111"), ("3", "10", "12"), ("4", "8", "9")]) 3
    (by decide!)).1

/-- C16 as stated fails: the shares (1,"1"), (2,"2"), (3,"100") all decode,
the third point is not on the line through the first two (whose value at 3 is
3), and `processTestCase` with `k = 2` returns 0, the secret of the first two
points. -/
theorem processTestCase_returns_despite_inconsistent_share :
    decodePoints (mapOf [("1", "10", "1"), ("2", "10", "2"), ("3", "10", "100")])
      = Except.ok [(1, 1), (2, 2), (3, 100)]
    ∧ lagrangeExact [(1, 1), (2, 2)] 3 = 3
    ∧ lagrangeExact [(1, 1), (2, 2)] 0 = 0
    ∧ processTestCase (mapOf [("1", "10", "1"), ("2", "10", "2"), ("3", "10", "100")]) 2
        = Except.ok 0
    ∧ processTestCase (mapOf [("1", "10", "1"), ("2", "10", "2")]) 2 = Except.ok 0 := by
  decide!

/-- C16 amended: for every map whose keys and bases are numbers, in which more
than `k` shares decode and the point after the first `k` decoded points is not
on their polynomial, `processTestCase` makes no consistency check: it returns
what it returns for the first `k` decoded shares alone. -/
theorem processTestCase_ignores_surplus (testData : List Entry) (k : Int)
    (hp : ∀ e ∈ testData, parses e = true) (hk : 1 ≤ k ∧ k < 2 ^ 31)
    (hmore : k < ((testData.filter decodes).length : Int))
    (_hoff : ∀ p, (decodedPoints testData)[k.toNat]? = some p →
      lagrangeExact ((decodedPoints testData).take k.toNat) p.1 ≠ p.2) :
    processTestCase testData k
      = processTestCase ((testData.filter decodes).take k.toNat) k := by
  have hmod : k % 2 ^ 64 = k := Int.emod_eq_of_lt (by omega) (by omega)
  have hp2 : ∀ e ∈ (testData.filter decodes).take k.toNat, parses e = true :=
    fun e he => hp e (List.mem_of_mem_filter (List.mem_of_mem_take he))
  have hfil : ((testData.filter decodes).take k.toNat).filter decodes
      = (testData.filter decodes).take k.toNat := by
    apply List.filter_eq_self.mpr
    intro e he
    exact (List.mem_filter.mp (List.mem_of_mem_take he)).2
  have hlen : ((testData.filter decodes).take k.toNat).length = k.toNat := by
    rw [List.length_take]
    omega
  unfold processTestCase
  rw [processTestCaseWith_eq _ _ k hp, processTestCaseWith_eq _ _ k hp2,
    finishWith_eq_returned, finishWith_eq_returned]
  · unfold decodedPoints
    rw [hfil, List.map_take, List.take_take]
    simp
  · rw [hmod, decodedPoints_length, hfil, hlen]
    omega
  · rw [hmod, decodedPoints_length]
    omega

/-- Witness of C16 amended: the shares (1,"1"), (2,"2"), (3,"100") with
`k = 2`. -/
theorem processTestCase_ignores_surplus_witness :
    processTestCase (mapOf [("1", "10", "1"), ("2", "10", "2"), ("3", "10", "100")]) 2
      = processTestCase
        (((mapOf [("1", "10", "1"), ("2", "10", "2"), ("3", "10", "100")]).filter decodes).take
          (2 : Int).toNat) 2 :=
  processTestCase_ignores_surplus
    (mapOf [("1", "10", "1"), ("2", "10", "2"), ("3", "10", "100")]) 2
    (by decide!) (by decide) (by decide!) (by decide!)

/-- C18: for every base and every string, `convertToDecimal` returns the same
for the string and for the string with all non-alphanumeric characters
deleted; `"1-2"` in base 10 decodes to 12, and the empty string decodes to
0. -/
theorem convertToDecimal_deletes_non_alnum (base : Int) (s : String) :
    convertToDecimal s base = convertToDecimal (String.mk (s.toList.filter isAlnum)) base
    ∧ convertToDecimal "1-2" 10 = 12
    ∧ convertToDecimal "1-2" 10 = convertToDecimal "12" 10
    ∧ convertToDecimal "" base = 0 :=
  ⟨(convertToDecimal_filter s base).symm, by decide, by decide, rfl⟩

/-- C19: for every map of fewer than `2^63` entries and every `int` `k`, the
selection step is reached exactly when `0 ≤ k ≤ points.size()`. For such `k`
the slice has exactly `k` elements and, whatever the interpolation routine is,
`processTestCase` returns the value computed from the routine applied to that
slice; for every other `k`, negative or larger than `points.size()`, the size
test of line 122 returns `-1` and the routine has no part in the result. -/
theorem selection_within_points (testData : List Entry) (k : Int)
    (points : List (Int × Int)) (hk : -2 ^ 31 ≤ k ∧ k < 2 ^ 31)
    (hsize : testData.length < 2 ^ 63)
    (hdec : decodePoints testData = Except.ok points) :
    ((0 ≤ k ∧ k ≤ (points.length : Int)) →
      ((points.take k.toNat).length : Int) = k
      ∧ ∀ interp : List (Int × Int) → Int → Dbl,
          processTestCaseWith interp testData k = returned (interp (points.take k.toNat) 0))
    ∧ (¬ (0 ≤ k ∧ k ≤ (points.length : Int)) →
      ∀ interp : List (Int × Int) → Int → Dbl,
        processTestCaseWith interp testData k = Except.ok (-1)) := by
  have hle : points.length ≤ testData.length := decodePoints_length_le testData points hdec
  have hrun : ∀ interp : List (Int × Int) → Int → Dbl,
      processTestCaseWith interp testData k = finishWith interp points k := by
    intro interp
    simp only [processTestCaseWith, hdec, bind, Except.bind]
  constructor
  · intro hin
    have hmod : k % 2 ^ 64 = k := Int.emod_eq_of_lt (by omega) (by omega)
    refine ⟨?_, fun interp => ?_⟩
    · rw [List.length_take]
      omega
    · rw [hrun interp, finishWith_eq_returned]
      rw [hmod]
      omega
  · intro hout interp
    rw [hrun interp]
    unfold finishWith
    by_cases hneg : k < 0
    · have hmod : k % 2 ^ 64 = k + 2 ^ 64 := by
        rw [← Int.add_emod_self]
        exact Int.emod_eq_of_lt (by omega) (by omega)
      rw [if_pos (by omega)]
    · have hmod : k % 2 ^ 64 = k := Int.emod_eq_of_lt (by omega) (by omega)
      rw [if_pos (by omega)]

/-- Witness of C19: `testCase1`, whose four shares decode, with `k = 3` (the
slice has three elements), with `k = -1` and with `k = 5` (both rejected). -/
theorem selection_within_points_witness :
    ((([(1, 4), (2, 7), (3, 12), (6, 39)] : List (Int × Int)).take (3 : Int).toNat).length : Int)
        = 3
    ∧ (∀ interp : List (Int × Int) → Int → Dbl,
        processTestCaseWith interp testCase1 3
          = returned (interp (([(1, 4), (2, 7), (3, 12), (6, 39)] : List (Int × Int)).take
              (3 : Int).toNat) 0))
    ∧ (∀ interp : List (Int × Int) → Int → Dbl,
        processTestCaseWith interp testCase1 (-1) = Except.ok (-1))
    ∧ (∀ interp : List (Int × Int) → Int → Dbl,
        processTestCaseWith interp testCase1 5 = Except.ok (-1)) :=
  have h3 := (selection_within_points testCase1 3 [(1, 4), (2, 7), (3, 12), (6, 39)]
    (by decide) (by decide!) (by decide!)).1 (by decide)
  ⟨h3.1, h3.2,
    (selection_within_points testCase1 (-1) [(1, 4), (2, 7), (3, 12), (6, 39)] (by decide)
      (by decide!) (by decide!)).2 (by decide),
    (selection_within_points testCase1 5 [(1, 4), (2, 7), (3, 12), (6, 39)] (by decide)
      (by decide!) (by decide!)).2 (by decide)⟩

/-! ## Lemmas on the `double` model -/

theorem bitLenAux_eq_size (fuel n : Nat) (h : n ≤ fuel) : bitLenAux fuel n = n.size := by
  induction fuel generalizing n with
  | zero =>
    have : n = 0 := by omega
    subst this
    simp [bitLenAux]
  | succ fuel ih =>
    by_cases h0 : n = 0
    · subst h0
      simp [bitLenAux]
    · simp only [bitLenAux, if_neg h0]
      have hdiv : n / 2 ≤ fuel := by omega
      rw [ih (n / 2) hdiv]
      have h1 : n.size ≤ (n / 2).size + 1 := by
        rw [Nat.size_le]
        have := Nat.lt_size_self (n / 2)
        rw [pow_succ]
        omega
      have h2 : (n / 2).size < n.size := by
        rw [Nat.lt_size]
        by_cases ht : (n / 2).size = 0
        · rw [ht]
          simp
          omega
        · have h3 : (n / 2).size - 1 < (n / 2).size := by omega
          rw [Nat.lt_size] at h3
          have h4 : 2 ^ (n / 2).size = 2 ^ ((n / 2).size - 1) * 2 := by
            rw [← pow_succ]
            congr 1
            omega
          rw [h4]
          omega
      omega

theorem bitLen_eq_size (n : Nat) : bitLen n = n.size :=
  bitLenAux_eq_size n n (le_refl n)

theorem bitLen_zero : bitLen 0 = 0 := by simp [bitLen_eq_size]

theorem bitLen_pos {n : Nat} (h : n ≠ 0) : 0 < bitLen n := by
  rw [bitLen_eq_size, Nat.size_pos]
  omega

theorem lt_two_pow_bitLen (n : Nat) : n < 2 ^ bitLen n := by
  rw [bitLen_eq_size]
  exact Nat.lt_size_self n

theorem bitLen_le_iff {m n : Nat} : bitLen m ≤ n ↔ m < 2 ^ n := by
  rw [bitLen_eq_size]
  exact Nat.size_le

theorem lt_bitLen_iff {m n : Nat} : m < bitLen n ↔ 2 ^ m ≤ n := by
  rw [bitLen_eq_size]
  exact Nat.lt_size

theorem bitLen_two_pow (n : Nat) : bitLen (2 ^ n) = n + 1 := by
  rw [bitLen_eq_size]
  exact Nat.size_pow

theorem bitLen_mul_two_pow {m : Nat} (h : m ≠ 0) (j : Nat) :
    bitLen (m * 2 ^ j) = bitLen m + j := by
  rw [bitLen_eq_size, bitLen_eq_size, ← Nat.shiftLeft_eq, Nat.size_shiftLeft h]

theorem bitLen_mono {m n : Nat} (h : m ≤ n) : bitLen m ≤ bitLen n := by
  rw [bitLen_eq_size, bitLen_eq_size]
  exact Nat.size_le_size h

/-- The length of a quotient by a power of two. -/
theorem bitLen_div_two_pow (m s : Nat) : bitLen (m / 2 ^ s) = bitLen m - s := by
  apply le_antisymm
  · by_cases hs : s ≤ bitLen m
    · rw [bitLen_le_iff, Nat.div_lt_iff_lt_mul (by positivity), ← pow_add]
      have : bitLen m - s + s = bitLen m := by omega
      rw [this]
      exact lt_two_pow_bitLen m
    · have : m / 2 ^ s = 0 := by
        apply Nat.div_eq_of_lt
        calc m < 2 ^ bitLen m := lt_two_pow_bitLen m
          _ ≤ 2 ^ s := Nat.pow_le_pow_right (by decide) (by omega)
      rw [this, bitLen_zero]
      omega
  · by_cases hs : s < bitLen m
    · have h1 : bitLen m - s - 1 < bitLen (m / 2 ^ s) := by
        rw [lt_bitLen_iff, Nat.le_div_iff_mul_le (by positivity), ← pow_add]
        have h2 : bitLen m - s - 1 + s < bitLen m := by omega
        exact lt_bitLen_iff.mp h2
      omega
    · omega

theorem bitLen_add_one_le (q : Nat) : bitLen (q + 1) ≤ bitLen q + 1 := by
  rw [bitLen_le_iff, pow_succ]
  have := lt_two_pow_bitLen q
  omega

/-- The mantissa and exponent that `roundToDbl` computes before its final case
distinction, with their bounds. -/
theorem roundToDbl_spec (s : Bool) (m : Nat) (e : Int) (hm : m ≠ 0) :
    ∃ (m' : Nat) (e' : Int),
      roundToDbl s m e = (if m' = 0 then Dbl.fin s 0 (-1074)
        else if e' + bitLen m' > 1024 then Dbl.inf s else Dbl.fin s m' e')
      ∧ m' < 2 ^ 53 ∧ -1074 ≤ e' ∧ (bitLen m' = 53 ∨ e' = -1074)
      ∧ (m' = 0 ∨ e' + (bitLen m' : Int) ≤ max (e + bitLen m + 1) (-1073))
      ∧ (-1074 ≤ e → m' ≠ 0 ∧ e + (bitLen m : Int) ≤ e' + bitLen m')
      ∧ (-1074 ≤ e → bitLen m ≤ 53 → e' + (bitLen m' : Int) = e + bitLen m) := by
  -- the facts on the rounded mantissa
  have core : ∀ (e1 : Int), e1 = max (e + bitLen m - 53) (-1074) →
      ∀ mant : Nat, mant = (if e1 ≤ e then m * 2 ^ (e - e1).toNat
        else if m % 2 ^ (e1 - e).toNat > 2 ^ ((e1 - e).toNat - 1)
          ∨ (m % 2 ^ (e1 - e).toNat = 2 ^ ((e1 - e).toNat - 1)
            ∧ m / 2 ^ (e1 - e).toNat % 2 = 1)
        then m / 2 ^ (e1 - e).toNat + 1 else m / 2 ^ (e1 - e).toNat) →
      (mant ≤ 2 ^ 53) ∧ (e1 = e + bitLen m - 53 → 2 ^ 52 ≤ mant)
      ∧ (mant = 0 ∨ e1 + (bitLen mant : Int) ≤ max (e + bitLen m + 1) (-1073))
      ∧ (-1074 ≤ e → mant ≠ 0 ∧ e + (bitLen m : Int) ≤ e1 + bitLen mant)
      ∧ (-1074 ≤ e → bitLen m ≤ 53 → e1 + (bitLen mant : Int) = e + bitLen m) := by
    intro e1 he1 mant hmant
    have hpos : 0 < bitLen m := bitLen_pos hm
    by_cases hle : e1 ≤ e
    · rw [if_pos hle] at hmant
      have hbl : bitLen mant = bitLen m + (e - e1).toNat := by
        rw [hmant]; exact bitLen_mul_two_pow hm _
      have hne : mant ≠ 0 := by
        rw [hmant]; positivity
      have h53 : bitLen mant ≤ 53 := by omega
      refine ⟨?_, ?_, ?_, fun _ => ⟨hne, by omega⟩, fun _ _ => by omega⟩
      · exact le_of_lt (bitLen_le_iff.mp h53)
      · intro h
        have : 52 < bitLen mant := by omega
        exact lt_bitLen_iff.mp this
      · right
        omega
    · rw [if_neg hle] at hmant
      have hq : bitLen (m / 2 ^ (e1 - e).toNat) = bitLen m - (e1 - e).toNat :=
        bitLen_div_two_pow m _
      have hq53 : bitLen (m / 2 ^ (e1 - e).toNat) ≤ 53 := by omega
      have hqlt : m / 2 ^ (e1 - e).toNat < 2 ^ 53 := bitLen_le_iff.mp hq53
      have hge : m / 2 ^ (e1 - e).toNat ≤ mant := by
        rw [hmant]; split_ifs <;> omega
      have hle1 : mant ≤ m / 2 ^ (e1 - e).toNat + 1 := by
        rw [hmant]; split_ifs <;> omega
      have hbm : bitLen mant ≤ bitLen (m / 2 ^ (e1 - e).toNat) + 1 :=
        le_trans (bitLen_mono hle1) (bitLen_add_one_le _)
      have h3 : e1 = e + bitLen m - 53 → 2 ^ 52 ≤ mant := by
        intro h
        have : 52 < bitLen (m / 2 ^ (e1 - e).toNat) := by omega
        exact le_trans (lt_bitLen_iff.mp this) hge
      refine ⟨by omega, h3, ?_, ?_, fun _ _ => by omega⟩
      · by_cases hsh : (e1 - e).toNat ≤ bitLen m
        · right
          omega
        · have hq0 : m / 2 ^ (e1 - e).toNat = 0 := by
            have : bitLen (m / 2 ^ (e1 - e).toNat) = 0 := by omega
            rw [bitLen_eq_size, Nat.size_eq_zero] at this
            exact this
          have hm1 : mant ≤ 1 := by omega
          by_cases hm0 : mant = 0
          · exact Or.inl hm0
          · right
            have : mant = 1 := by omega
            have hb1 : bitLen mant = 1 := by
              rw [this]; exact bitLen_two_pow 0
            omega
      · intro hge0
        have h52 := h3 (by omega)
        have hb : 52 < bitLen mant := lt_bitLen_iff.mpr h52
        exact ⟨by omega, by omega⟩
  obtain ⟨h1, h2, h3, h4, h5⟩ := core _ rfl _ rfl
  unfold roundToDbl
  simp only [if_neg hm]
  generalize hE : max (e + (bitLen m : Int) - 53) (-1074) = e1 at h1 h2 h3 h4 h5 ⊢
  generalize hM : (if e1 ≤ e then m * 2 ^ (e - e1).toNat
        else if m % 2 ^ (e1 - e).toNat > 2 ^ ((e1 - e).toNat - 1)
          ∨ (m % 2 ^ (e1 - e).toNat = 2 ^ ((e1 - e).toNat - 1)
            ∧ m / 2 ^ (e1 - e).toNat % 2 = 1)
        then m / 2 ^ (e1 - e).toNat + 1 else m / 2 ^ (e1 - e).toNat) = mant at h1 h2 h3 h4 h5 ⊢
  have he1 : -1074 ≤ e1 := by omega
  by_cases hc : mant = 2 ^ 53
  · have hb : bitLen mant = 54 := by rw [hc]; exact bitLen_two_pow 53
    have hb2 : bitLen (2 ^ 52) = 53 := bitLen_two_pow 52
    refine ⟨2 ^ 52, e1 + 1, ?_, by norm_num, by omega, Or.inl hb2, ?_, ?_, ?_⟩
    · simp only [if_pos hc]
    · right
      rcases h3 with h3 | h3
      · omega
      · omega
    · intro h
      have := (h4 h).2
      exact ⟨by positivity, by omega⟩
    · intro h h'
      have := h5 h h'
      omega
  · have hlt : mant < 2 ^ 53 := by omega
    refine ⟨mant, e1, ?_, hlt, he1, ?_, h3, h4, h5⟩
    · simp only [if_neg hc]
    · by_cases h : e1 = -1074
      · exact Or.inr h
      · left
        have h52 := h2 (by omega)
        have ha : 52 < bitLen mant := lt_bitLen_iff.mpr h52
        have hb : bitLen mant ≤ 53 := bitLen_le_iff.mpr hlt
        omega

theorem roundToDbl_zero (s : Bool) (e : Int) : roundToDbl s 0 e = Dbl.fin s 0 (-1074) := by
  simp [roundToDbl]

theorem canon_zero (s : Bool) : (Dbl.fin s 0 (-1074)).Canon := by
  simp [Dbl.Canon]

/-- Every result of a rounding is in canonical form. -/
theorem roundToDbl_canon (s : Bool) (m : Nat) (e : Int) : (roundToDbl s m e).Canon := by
  by_cases hm : m = 0
  · subst hm
    rw [roundToDbl_zero]
    exact canon_zero s
  · obtain ⟨m', e', h, h1, h2, h3, -, -, -⟩ := roundToDbl_spec s m e hm
    rw [h]
    split_ifs with a b
    · exact canon_zero s
    · trivial
    · exact ⟨h1, h2, fun _ => by omega, h3⟩

/-- A rounding stays below the next power of two. -/
theorem roundToDbl_below (s : Bool) (m : Nat) (e N : Int) (hm : m ≠ 0)
    (hN : e + bitLen m + 1 ≤ N) (hN1 : -1073 ≤ N) (hN2 : N ≤ 1024) :
    (roundToDbl s m e).Below N := by
  obtain ⟨m', e', h, -, -, -, h4, -, -⟩ := roundToDbl_spec s m e hm
  rw [h]
  split_ifs with a b
  · exact Or.inl rfl
  · exfalso
    rcases h4 with h4 | h4
    · exact a h4
    · omega
  · rcases h4 with h4 | h4
    · exact absurd h4 a
    · exact Or.inr (by omega)

/-- A value of at most 53 binary digits is not changed by the rounding. -/
theorem roundToDbl_exact (s : Bool) (m : Nat) (e : Int) (hm : m ≠ 0) (he : -1074 ≤ e)
    (hb : bitLen m ≤ 53) (hN : e + bitLen m ≤ 1024) :
    ∃ (m' : Nat) (e' : Int), roundToDbl s m e = Dbl.fin s m' e' ∧ m' ≠ 0
      ∧ e' + (bitLen m' : Int) = e + bitLen m := by
  obtain ⟨m', e', h, -, -, -, -, h5, h6⟩ := roundToDbl_spec s m e hm
  have h5' := h5 he
  have h6' := h6 he hb
  refine ⟨m', e', ?_, h5'.1, h6'⟩
  rw [h, if_neg h5'.1, if_neg (by omega)]

/-- The result of rounding a value from the normal range. -/
theorem roundToDbl_finite (s : Bool) (m : Nat) (e : Int) (hm : m ≠ 0) (he : -1074 ≤ e)
    (hN : e + bitLen m + 1 ≤ 1024) :
    ∃ (m' : Nat) (e' : Int), roundToDbl s m e = Dbl.fin s m' e' ∧ m' ≠ 0
      ∧ e + (bitLen m : Int) ≤ e' + bitLen m' ∧ e' + (bitLen m' : Int) ≤ e + bitLen m + 1 := by
  obtain ⟨m', e', h, -, -, -, h4, h5, -⟩ := roundToDbl_spec s m e hm
  have h5' := h5 he
  have h4' : e' + (bitLen m' : Int) ≤ e + bitLen m + 1 := by
    rcases h4 with h4 | h4
    · exact absurd h4 h5'.1
    · have := bitLen_pos hm
      omega
  refine ⟨m', e', ?_, h5'.1, h5'.2, h4'⟩
  rw [h, if_neg h5'.1, if_neg (by omega)]

/-- A canonical value, written with a longer mantissa, is rounded to itself. -/
theorem roundToDbl_scaled (s : Bool) (m : Nat) (e : Int) (j : Nat)
    (hc : (Dbl.fin s m e).Canon) (hm : m ≠ 0) :
    roundToDbl s (m * 2 ^ j) (e - j) = Dbl.fin s m e := by
  obtain ⟨h1, h2, h3, h4⟩ := hc
  have h3' := h3 hm
  have hm' : m * 2 ^ j ≠ 0 := by positivity
  have hbl : bitLen (m * 2 ^ j) = bitLen m + j := bitLen_mul_two_pow hm j
  have hb53 : bitLen m ≤ 53 := bitLen_le_iff.mpr h1
  have hE : max (e - (j : Int) + ((bitLen (m * 2 ^ j) : Nat) : Int) - 53) (-1074) = e := by
    rw [hbl]
    rcases h4 with h4 | h4
    · omega
    · omega
  unfold roundToDbl
  simp only [if_neg hm', hE]
  by_cases hj : j = 0
  · subst hj
    have h53 : m ≠ 9007199254740992 := by omega
    simp [h53, hm]
    omega
  · have hlt : ¬ e ≤ e - (j : Int) := by omega
    have hsh : (e - (e - (j : Int))).toNat = j := by omega
    have hq : m * 2 ^ j / 2 ^ j = m := Nat.mul_div_cancel _ (by positivity)
    have hr : m * 2 ^ j % 2 ^ j = 0 := Nat.mul_mod_left _ _
    have hhalf : (2 : Nat) ^ (j - 1) ≠ 0 := by positivity
    have h53 : m ≠ 2 ^ 53 := by omega
    simp only [if_neg hlt, hsh, hq, hr]
    have hno : ¬ (0 > 2 ^ (j - 1) ∨ (0 = 2 ^ (j - 1) ∧ m % 2 = 1)) := by
      rintro (h | ⟨h, -⟩)
      · exact absurd h (Nat.not_lt_zero _)
      · exact hhalf h.symm
    simp only [if_neg hno, if_neg h53, if_neg hm]
    rw [if_neg (by omega)]

namespace Dbl

theorem canon_one : (fin false (2 ^ 52) (-52)).Canon := by
  show (2 : Nat) ^ 52 < 2 ^ 53 ∧ (-1074 : Int) ≤ -52
    ∧ ((2 : Nat) ^ 52 ≠ 0 → (-52 : Int) + bitLen (2 ^ 52) ≤ 1024)
    ∧ (bitLen (2 ^ 52) = 53 ∨ (-52 : Int) = -1074)
  rw [bitLen_two_pow]
  norm_num

theorem mul_one_of_canon (x : Dbl) (hc : x.Canon) (hf : x.isFinite = true) :
    x.mul one = x := by
  cases x with
  | nan => simp [isFinite] at hf
  | inf s => simp [isFinite] at hf
  | fin s m e =>
    simp only [mul, one, Bool.xor_false]
    by_cases hm : m = 0
    · subst hm
      rw [Nat.zero_mul, roundToDbl_zero]
      have := hc.2.2.2
      simp [bitLen_zero] at this
      rw [this]
    · have := roundToDbl_scaled s m e 52 hc hm
      simpa [sub_eq_add_neg] using this

theorem two_mul_pow_eq (b : Nat) : 2 * 2 ^ (b + 55) + 0 = 2 ^ 52 * 2 ^ (b + 4) := by
  rw [show b + 55 = (b + 4) + 51 by omega, pow_add]
  ring

theorem div_self_exponent (e : Int) (b : Nat) :
    e - e - ((b + 55 : Nat) : Int) - 1 = -52 - ((b + 4 : Nat) : Int) := by
  push_cast
  omega

theorem div_self_eq_one (s : Bool) (m : Nat) (e : Int) (hm : m ≠ 0) :
    (fin s m e).div (fin s m e) = one := by
  have hk : m * 2 ^ (bitLen m + 55) / m = 2 ^ (bitLen m + 55) :=
    Nat.mul_div_cancel_left _ (by omega)
  have hr : m * 2 ^ (bitLen m + 55) % m = 0 := Nat.mul_mod_right _ _
  simp only [div, if_neg hm, hk, hr, Bool.xor_self, if_true]
  rw [two_mul_pow_eq, div_self_exponent]
  exact roundToDbl_scaled false (2 ^ 52) (-52) (bitLen m + 4) canon_one (by positivity)

end Dbl

theorem bitLen_mul_le (m n : Nat) : bitLen (m * n) ≤ bitLen m + bitLen n := by
  rw [bitLen_le_iff, pow_add]
  exact Nat.mul_lt_mul'' (lt_two_pow_bitLen m) (lt_two_pow_bitLen n)

namespace Dbl

theorem ofInt_zero : ofInt 0 = fin false 0 (-1074) := by
  simp [ofInt, roundToDbl_zero]

theorem ofInt_canon (z : Int) : (ofInt z).Canon := roundToDbl_canon _ _ _

/-- The conversion of a non-zero integer of at most 53 binary digits. -/
theorem ofInt_small (z : Int) (hz : z ≠ 0) (B : Nat) (hB : z.natAbs < 2 ^ B) (hB53 : B ≤ 53) :
    ∃ (m : Nat) (e : Int), ofInt z = fin (decide (z < 0)) m e ∧ m ≠ 0
      ∧ 1 ≤ e + (bitLen m : Int) ∧ e + (bitLen m : Int) ≤ B := by
  have hm : z.natAbs ≠ 0 := by omega
  have hb : bitLen z.natAbs ≤ B := bitLen_le_iff.mpr hB
  have hp := bitLen_pos hm
  obtain ⟨m, e, h, h1, h2⟩ := roundToDbl_exact (decide (z < 0)) z.natAbs 0 hm (by norm_num)
    (by omega) (by omega)
  exact ⟨m, e, h, h1, by omega, by omega⟩

/-- The conversion of a `long long`. -/
theorem ofInt_int64 (z : Int) (h : z.natAbs ≤ 2 ^ 63) :
    ∃ (m : Nat) (e : Int), ofInt z = fin (decide (z < 0)) m e ∧ (m = 0 → z = 0)
      ∧ (m = 0 ∨ e + (bitLen m : Int) ≤ 65) := by
  by_cases hz : z = 0
  · subst hz
    exact ⟨0, -1074, by simp [ofInt_zero], fun _ => rfl, Or.inl rfl⟩
  · have hm : z.natAbs ≠ 0 := by omega
    have hb : bitLen z.natAbs ≤ 64 := by
      rw [bitLen_le_iff]
      have : (2 : Nat) ^ 63 < 2 ^ 64 := by norm_num
      omega
    obtain ⟨m, e, h, h1, -, h3⟩ := roundToDbl_finite (decide (z < 0)) z.natAbs 0 hm
      (by norm_num) (by omega)
    exact ⟨m, e, h, fun h0 => absurd h0 h1, Or.inr (by omega)⟩

theorem mul_below (s t : Bool) (m n : Nat) (e f N1 N2 K : Int)
    (h1 : m = 0 ∨ e + (bitLen m : Int) ≤ N1) (h2 : n = 0 ∨ f + (bitLen n : Int) ≤ N2)
    (hK : N1 + N2 + 1 ≤ K) (hK1 : -1073 ≤ K) (hK2 : K ≤ 1024) :
    ((fin s m e).mul (fin t n f)).Below K := by
  simp only [mul]
  by_cases h0 : m * n = 0
  · rw [h0, roundToDbl_zero]
    exact Or.inl rfl
  · have hm : m ≠ 0 := fun h => h0 (by rw [h, Nat.zero_mul])
    have hn : n ≠ 0 := fun h => h0 (by rw [h, Nat.mul_zero])
    have hb := bitLen_mul_le m n
    apply roundToDbl_below _ _ _ _ h0 _ hK1 hK2
    rcases h1 with h1 | h1
    · exact absurd h1 hm
    · rcases h2 with h2 | h2
      · exact absurd h2 hn
      · omega

theorem div_below (s t : Bool) (m n : Nat) (e f N L K : Int)
    (h1 : m = 0 ∨ e + (bitLen m : Int) ≤ N) (hn : n ≠ 0) (h2 : L ≤ f + (bitLen n : Int))
    (hK : N - L + 2 ≤ K) (hK1 : -1073 ≤ K) (hK2 : K ≤ 1024) :
    ((fin s m e).div (fin t n f)).Below K := by
  simp only [div, if_neg hn]
  generalize hM : 2 * (m * 2 ^ (bitLen n + 55) / n)
    + (if m * 2 ^ (bitLen n + 55) % n = 0 then 0 else 1) = M
  by_cases h0 : M = 0
  · rw [h0, roundToDbl_zero]
    exact Or.inl rfl
  · have hm : m ≠ 0 := by
      intro h
      apply h0
      rw [← hM, h]
      simp
    have hq : m * 2 ^ (bitLen n + 55) / n < 2 ^ (bitLen m + 56) := by
      rw [Nat.div_lt_iff_lt_mul (by omega)]
      have hn1 : 2 ^ (bitLen n - 1) ≤ n := by
        have : bitLen n - 1 < bitLen n := by
          have := bitLen_pos hn
          omega
        exact lt_bitLen_iff.mp this
      have hm1 := lt_two_pow_bitLen m
      calc m * 2 ^ (bitLen n + 55) < 2 ^ bitLen m * 2 ^ (bitLen n + 55) :=
            Nat.mul_lt_mul_of_pos_right hm1 (by positivity)
        _ = 2 ^ (bitLen m + 56) * 2 ^ (bitLen n - 1) := by
            have hp := bitLen_pos hn
            rw [← pow_add, ← pow_add,
              show bitLen m + (bitLen n + 55) = bitLen m + 56 + (bitLen n - 1) by omega]
        _ ≤ 2 ^ (bitLen m + 56) * n := Nat.mul_le_mul_left _ hn1
    have hMb : bitLen M ≤ bitLen m + 57 := by
      rw [bitLen_le_iff, show bitLen m + 57 = (bitLen m + 56) + 1 by omega, pow_succ]
      generalize (2 : Nat) ^ (bitLen m + 56) = P at hq
      generalize m * 2 ^ (bitLen n + 55) / n = Q at hq hM
      rw [← hM]
      split_ifs <;> omega
    apply roundToDbl_below _ _ _ _ h0 _ hK1 hK2
    rcases h1 with h1 | h1
    · exact absurd h1 hm
    · push_cast
      omega

theorem isZero_mul_right (s t : Bool) (m : Nat) (e f : Int) :
    ((fin s m e).mul (fin t 0 f)).IsZero := by
  simp [mul, roundToDbl_zero, IsZero]

theorem isZero_mul_left (s t : Bool) (n : Nat) (e f : Int) :
    ((fin s 0 e).mul (fin t n f)).IsZero := by
  simp [mul, roundToDbl_zero, IsZero]

theorem isZero_div (s t : Bool) (n : Nat) (e f : Int) (hn : n ≠ 0) :
    ((fin s 0 e).div (fin t n f)).IsZero := by
  simp [div, hn, roundToDbl_zero, IsZero]

/-- Adding a zero to `0.0` gives `0.0`. -/
theorem zero_add_isZero (z : Dbl) (hz : z.IsZero) : zero.add z = zero := by
  cases z with
  | nan => exact absurd hz id
  | inf t => exact absurd hz id
  | fin t n f =>
    obtain ⟨hn, hf⟩ := hz
    subst hn hf
    simp [zero, add]

theorem min_neg1074 (e : Int) (h : -1074 ≤ e) : min (-1074) e = -1074 := by omega

theorem min_neg1074' (e : Int) (h : -1074 ≤ e) : min e (-1074) = -1074 := by omega

/-- Adding a canonical non-zero value to `0.0` gives that value. -/
theorem zero_add_of_canon (s : Bool) (m : Nat) (e : Int) (hc : (fin s m e).Canon)
    (hm : m ≠ 0) : zero.add (fin s m e) = fin s m e := by
  have he : -1074 ≤ e := hc.2.1
  have key := roundToDbl_scaled s m e (e + 1074).toNat hc hm
  have hj : e - ((e + 1074).toNat : Int) = -1074 := by omega
  rw [hj] at key
  have hpos : 0 < m * 2 ^ (e + 1074).toNat := by positivity
  simp only [zero, add, min_neg1074 e he, sub_self, Int.toNat_zero, pow_zero, Nat.mul_one,
    Nat.cast_zero, mul_zero, zero_add, sub_neg_eq_add]
  cases s with
  | false =>
    have hc0 : (1 : Int) * ((m * 2 ^ (e + 1074).toNat : Nat) : Int) ≠ 0 := by
      rw [one_mul]; exact_mod_cast hpos.ne'
    simp only [Bool.false_eq_true, if_false] at hc0 ⊢
    rw [if_neg hc0]
    have h1 : decide ((1 : Int) * ((m * 2 ^ (e + 1074).toNat : Nat) : Int) < 0) = false := by
      rw [one_mul]
      simp only [decide_eq_false_iff_not, not_lt]
      exact Int.natCast_nonneg _
    have h2 : ((1 : Int) * ((m * 2 ^ (e + 1074).toNat : Nat) : Int)).natAbs
        = m * 2 ^ (e + 1074).toNat := by
      rw [one_mul, Int.natAbs_ofNat]
    rw [h1, h2, key]
  | true =>
    have hc0 : (-1 : Int) * ((m * 2 ^ (e + 1074).toNat : Nat) : Int) ≠ 0 := by
      have : ((m * 2 ^ (e + 1074).toNat : Nat) : Int) ≠ 0 := by exact_mod_cast hpos.ne'
      omega
    simp only [if_true] at hc0 ⊢
    rw [if_neg hc0]
    have h1 : decide ((-1 : Int) * ((m * 2 ^ (e + 1074).toNat : Nat) : Int) < 0) = true := by
      simp only [decide_eq_true_eq]
      have : (0 : Int) < ((m * 2 ^ (e + 1074).toNat : Nat) : Int) := by exact_mod_cast hpos
      omega
    have h2 : ((-1 : Int) * ((m * 2 ^ (e + 1074).toNat : Nat) : Int)).natAbs
        = m * 2 ^ (e + 1074).toNat := by
      rw [neg_one_mul, Int.natAbs_neg, Int.natAbs_ofNat]
    rw [h1, h2, key]

end Dbl

namespace Dbl

/-- Adding a zero to a canonical non-zero value gives that value. -/
theorem add_isZero_of_canon (s : Bool) (m : Nat) (e : Int) (hc : (fin s m e).Canon)
    (hm : m ≠ 0) (z : Dbl) (hz : z.IsZero) : (fin s m e).add z = fin s m e := by
  cases z with
  | nan => exact absurd hz id
  | inf t => exact absurd hz id
  | fin t n f =>
    obtain ⟨hn, hf⟩ := hz
    subst hn hf
    have he : -1074 ≤ e := hc.2.1
    have key := roundToDbl_scaled s m e (e + 1074).toNat hc hm
    have hj : e - ((e + 1074).toNat : Int) = -1074 := by omega
    rw [hj] at key
    have hpos : 0 < m * 2 ^ (e + 1074).toNat := by positivity
    simp only [add, min_neg1074' e he, sub_self, Int.toNat_zero, pow_zero, Nat.mul_one,
      Nat.cast_zero, mul_zero, add_zero, sub_neg_eq_add]
    cases s with
    | false =>
      have hc0 : (1 : Int) * ((m * 2 ^ (e + 1074).toNat : Nat) : Int) ≠ 0 := by
        rw [one_mul]; exact_mod_cast hpos.ne'
      simp only [Bool.false_eq_true, if_false] at hc0 ⊢
      rw [if_neg hc0]
      have h1 : decide ((1 : Int) * ((m * 2 ^ (e + 1074).toNat : Nat) : Int) < 0) = false := by
        rw [one_mul]
        simp only [decide_eq_false_iff_not, not_lt]
        exact Int.natCast_nonneg _
      have h2 : ((1 : Int) * ((m * 2 ^ (e + 1074).toNat : Nat) : Int)).natAbs
          = m * 2 ^ (e + 1074).toNat := by
        rw [one_mul, Int.natAbs_ofNat]
      rw [h1, h2, key]
    | true =>
      have hc0 : (-1 : Int) * ((m * 2 ^ (e + 1074).toNat : Nat) : Int) ≠ 0 := by
        have : ((m * 2 ^ (e + 1074).toNat : Nat) : Int) ≠ 0 := by exact_mod_cast hpos.ne'
        omega
      simp only [if_true] at hc0 ⊢
      rw [if_neg hc0]
      have h1 : decide ((-1 : Int) * ((m * 2 ^ (e + 1074).toNat : Nat) : Int) < 0) = true := by
        simp only [decide_eq_true_eq]
        have : (0 : Int) < ((m * 2 ^ (e + 1074).toNat : Nat) : Int) := by exact_mod_cast hpos
        omega
      have h2 : ((-1 : Int) * ((m * 2 ^ (e + 1074).toNat : Nat) : Int)).natAbs
          = m * 2 ^ (e + 1074).toNat := by
        rw [neg_one_mul, Int.natAbs_neg, Int.natAbs_ofNat]
      rw [h1, h2, key]

/-- The conversion of a `long long` is not changed by adding it to `0.0`. -/
theorem zero_add_ofInt (y : Int) (hy : y.natAbs ≤ 2 ^ 63) : zero.add (ofInt y) = ofInt y := by
  obtain ⟨m, e, h, h0, -⟩ := ofInt_int64 y hy
  by_cases hm : m = 0
  · have := h0 hm
    subst this
    rw [ofInt_zero]
    rfl
  · have hc := ofInt_canon y
    rw [h] at hc ⊢
    exact zero_add_of_canon _ m e hc hm

/-- The conversion of a `long long` is not changed by adding a zero to it. -/
theorem ofInt_add_isZero (y : Int) (hy : y.natAbs ≤ 2 ^ 63) (z : Dbl) (hz : z.IsZero) :
    (ofInt y).add z = ofInt y := by
  obtain ⟨m, e, h, h0, -⟩ := ofInt_int64 y hy
  by_cases hm : m = 0
  · have := h0 hm
    subst this
    rw [ofInt_zero]
    exact zero_add_isZero z hz
  · have hc := ofInt_canon y
    rw [h] at hc ⊢
    exact add_isZero_of_canon _ m e hc hm z hz

theorem below_mono {N K : Int} (h : N ≤ K) (d : Dbl) (hd : d.Below N) : d.Below K := by
  cases d with
  | nan => exact absurd hd id
  | inf s => exact absurd hd id
  | fin s m e =>
    rcases hd with hd | hd
    · exact Or.inl hd
    · exact Or.inr (by omega)

theorem exists_fin_of_below {N : Int} (d : Dbl) (hd : d.Below N) :
    ∃ (s : Bool) (m : Nat) (e : Int), d = fin s m e ∧ (m = 0 ∨ e + (bitLen m : Int) ≤ N) := by
  cases d with
  | nan => exact absurd hd id
  | inf s => exact absurd hd id
  | fin s m e => exact ⟨s, m, e, rfl, hd⟩

theorem exists_fin_of_isZero (d : Dbl) (hd : d.IsZero) :
    ∃ (s : Bool), d = fin s 0 (-1074) := by
  cases d with
  | nan => exact absurd hd id
  | inf s => exact absurd hd id
  | fin s m e =>
    obtain ⟨h1, h2⟩ := hd
    subst h1 h2
    exact ⟨s, rfl⟩

/-- The quotient of the conversions of two `int`s, the second not zero, is
below `2 ^ 33`. -/
theorem factor_below (a b : Int) (ha : -2 ^ 31 ≤ a ∧ a < 2 ^ 31)
    (hb : -2 ^ 31 ≤ b ∧ b < 2 ^ 31) (hb0 : b ≠ 0) :
    ((ofInt a).div (ofInt b)).Below 33 := by
  have hbn : b.natAbs < 2 ^ 32 := by omega
  obtain ⟨n, f, hfb, hn, hf1, -⟩ := ofInt_small b hb0 32 hbn (by norm_num)
  rw [hfb]
  by_cases ha0 : a = 0
  · subst ha0
    rw [ofInt_zero]
    exact div_below _ _ 0 n _ f 32 1 33 (Or.inl rfl) hn hf1 (by norm_num) (by norm_num)
      (by norm_num)
  · have han : a.natAbs < 2 ^ 32 := by omega
    obtain ⟨m, e, hfa, -, -, he⟩ := ofInt_small a ha0 32 han (by norm_num)
    rw [hfa]
    exact div_below _ _ m n e f 32 1 33 (Or.inr he) hn hf1 (by norm_num) (by norm_num)
      (by norm_num)

/-- The quotient `0.0 / (double) b` is a zero. -/
theorem factor_isZero (b : Int) (hb : -2 ^ 31 ≤ b ∧ b < 2 ^ 31) (hb0 : b ≠ 0) :
    ((ofInt 0).div (ofInt b)).IsZero := by
  have hbn : b.natAbs < 2 ^ 32 := by omega
  obtain ⟨n, f, hfb, hn, -, -⟩ := ofInt_small b hb0 32 hbn (by norm_num)
  rw [hfb, ofInt_zero]
  exact isZero_div _ _ n _ f hn

/-- The quotient `(double) a / (double) a` is `1.0`. -/
theorem factor_one (a : Int) (ha : -2 ^ 31 ≤ a ∧ a < 2 ^ 31) (ha0 : a ≠ 0) :
    (ofInt a).div (ofInt a) = one := by
  have han : a.natAbs < 2 ^ 32 := by omega
  obtain ⟨m, e, hfa, hm, -, -⟩ := ofInt_small a ha0 32 han (by norm_num)
  rw [hfa]
  exact div_self_eq_one _ m e hm

/-! ### Infinite and NaN values -/

theorem mul_not_finite_right (a b : Dbl) (hb : b.isFinite = false) :
    (a.mul b).isFinite = false := by
  cases a <;> cases b <;> simp [mul, isFinite] at hb ⊢
  all_goals split_ifs <;> rfl

theorem mul_not_finite_left (a b : Dbl) (ha : a.isFinite = false) :
    (a.mul b).isFinite = false := by
  cases a <;> cases b <;> simp [mul, isFinite] at ha ⊢
  all_goals split_ifs <;> rfl

theorem add_not_finite_right (a b : Dbl) (hb : b.isFinite = false) :
    (a.add b).isFinite = false := by
  cases a <;> cases b <;> simp [add, isFinite] at hb ⊢
  all_goals split_ifs <;> rfl

theorem add_not_finite_left (a b : Dbl) (ha : a.isFinite = false) :
    (a.add b).isFinite = false := by
  cases a <;> cases b <;> simp [add, isFinite] at ha ⊢
  all_goals split_ifs <;> rfl

/-- A division by a zero is infinite or NaN. -/
theorem div_zero_not_finite (a : Dbl) (t : Bool) (f : Int) :
    (a.div (fin t 0 f)).isFinite = false := by
  cases a <;> simp [div, isFinite]
  all_goals split_ifs <;> rfl

/-- For an infinite value or NaN the value returned is the one of the
conversion instruction. -/
theorem returned_not_finite (d : Dbl) (hd : d.isFinite = false) :
    returned d = Except.ok (-2 ^ 63) := by
  cases d <;> simp [isFinite] at hd <;> rfl

end Dbl

theorem wrap32_range (z : Int) : -2 ^ 31 ≤ wrap32 z ∧ wrap32 z < 2 ^ 31 := by
  unfold wrap32; omega

theorem wrap32_sub_ne_zero (x y : Int) (hx : -2 ^ 31 ≤ x ∧ x < 2 ^ 31)
    (hy : -2 ^ 31 ≤ y ∧ y < 2 ^ 31) (h : x ≠ y) : wrap32 (x - y) ≠ 0 := by
  unfold wrap32; omega

theorem wrap32_sub_self (x : Int) : wrap32 (x - x) = 0 := by
  unfold wrap32; omega

/-! ### Folds -/

theorem foldl_fixed {α β : Type} (f : β → α → β) (b : β) (l : List α)
    (h : ∀ a ∈ l, f b a = b) : l.foldl f b = b := by
  induction l with
  | nil => rfl
  | cons a l ih =>
    rw [List.foldl_cons, h a (List.mem_cons_self a l)]
    exact ih (fun a' ha' => h a' (List.mem_cons_of_mem a ha'))

theorem foldl_pred {α β : Type} (f : β → α → β) (P : β → Prop) (l : List α)
    (h : ∀ a ∈ l, ∀ b, P b → P (f b a)) (b : β) (hb : P b) : P (l.foldl f b) := by
  induction l generalizing b with
  | nil => exact hb
  | cons a l ih =>
    rw [List.foldl_cons]
    exact ih (fun a' ha' => h a' (List.mem_cons_of_mem a ha')) _
      (h a (List.mem_cons_self a l) b hb)

theorem foldl_below {α : Type} (f : Dbl → α → Dbl) (l : List α)
    (h : ∀ a ∈ l, ∀ (b : Dbl) (N : Int), -1073 ≤ N → N + 34 ≤ 1024 → b.Below N →
      (f b a).Below (N + 34))
    (b : Dbl) (N : Int) (hN : -1073 ≤ N) (hN2 : N + 34 * (l.length : Int) ≤ 1024)
    (hb : b.Below N) : (l.foldl f b).Below (N + 34 * (l.length : Int)) := by
  induction l generalizing b N with
  | nil => simpa using hb
  | cons a l ih =>
    rw [List.foldl_cons]
    have hlen : ((a :: l).length : Int) = (l.length : Int) + 1 := by simp
    rw [hlen] at hN2 ⊢
    have h1 := h a (List.mem_cons_self a l) b N hN (by omega) hb
    have h2 := ih (fun a' ha' => h a' (List.mem_cons_of_mem a ha')) _ (N + 34) (by omega)
      (by omega) h1
    have h3 : N + 34 + 34 * (l.length : Int) = N + 34 * ((l.length : Int) + 1) := by ring
    rw [h3] at h2
    exact h2

/-! ### The interpolation at the abscissa of one of the points -/

theorem mem_of_mem_enum {points : List (Int × Int)} {i : Nat} {p : Int × Int}
    (h : (i, p) ∈ points.enum) : p ∈ points := by
  rw [List.mk_mem_enum_iff_getElem?] at h
  exact List.mem_iff_getElem?.mpr ⟨i, h⟩

theorem enum_fst_ne {points : List (Int × Int)} (hnd : (points.map Prod.fst).Nodup)
    {i j : Nat} {p q : Int × Int} (hi : (i, p) ∈ points.enum) (hj : (j, q) ∈ points.enum)
    (hij : i ≠ j) : p.1 ≠ q.1 := by
  rw [List.mk_mem_enum_iff_getElem?] at hi hj
  obtain ⟨hi1, hi2⟩ := List.getElem?_eq_some.mp hi
  obtain ⟨hj1, hj2⟩ := List.getElem?_eq_some.mp hj
  intro h
  apply hij
  have hi3 : i < (points.map Prod.fst).length := by simpa using hi1
  have hj3 : j < (points.map Prod.fst).length := by simpa using hj1
  have key : (points.map Prod.fst)[i] = (points.map Prod.fst)[j] := by
    simp only [List.getElem_map, hi2, hj2, h]
  exact (hnd.getElem_inj_iff).mp key

theorem ofInt_isFinite (y : Int) (hy : y.natAbs ≤ 2 ^ 63) : (Dbl.ofInt y).isFinite = true := by
  obtain ⟨m, e, h, -, -⟩ := Dbl.ofInt_int64 y hy
  rw [h]
  rfl

/-- The term of the point at whose abscissa the polynomial is evaluated is the
conversion of its ordinate: every factor is `1.0`. -/
theorem lagrangeTerm_node (points : List (Int × Int)) (i0 : Nat) (x0 y0 : Int)
    (hnd : (points.map Prod.fst).Nodup)
    (hrange : ∀ p ∈ points, (-2 ^ 31 ≤ p.1 ∧ p.1 < 2 ^ 31) ∧ (-2 ^ 63 ≤ p.2 ∧ p.2 < 2 ^ 63))
    (h0 : points[i0]? = some (x0, y0)) :
    lagrangeTerm points x0 i0 (x0, y0) = Dbl.ofInt y0 := by
  have hmem : (i0, (x0, y0)) ∈ points.enum := List.mk_mem_enum_iff_getElem?.mpr h0
  have hr0 := hrange _ (mem_of_mem_enum hmem)
  unfold lagrangeTerm
  apply foldl_fixed
  intro jp hjp
  by_cases hij : i0 ≠ jp.1
  · rw [if_pos hij]
    have hne : x0 ≠ jp.2.1 := enum_fst_ne hnd hmem hjp hij
    have hrj := hrange _ (mem_of_mem_enum hjp)
    rw [Dbl.factor_one _ (wrap32_range _) (wrap32_sub_ne_zero _ _ hr0.1 hrj.1 hne)]
    exact Dbl.mul_one_of_canon _ (Dbl.ofInt_canon _) (ofInt_isFinite _ (by omega))
  · rw [if_neg hij]

/-- Every other term is a zero, through the factor `0.0` of the point at whose
abscissa the polynomial is evaluated; with at most 29 points no product is
infinite before that factor. -/
theorem lagrangeTerm_other (points : List (Int × Int)) (i0 : Nat) (x0 y0 : Int)
    (hlen : points.length ≤ 29) (hnd : (points.map Prod.fst).Nodup)
    (hrange : ∀ p ∈ points, (-2 ^ 31 ≤ p.1 ∧ p.1 < 2 ^ 31) ∧ (-2 ^ 63 ≤ p.2 ∧ p.2 < 2 ^ 63))
    (h0 : points[i0]? = some (x0, y0)) (i : Nat) (p : Int × Int)
    (hi : (i, p) ∈ points.enum) (hne : i ≠ i0) :
    (lagrangeTerm points x0 i p).IsZero := by
  have hmem : (i0, (x0, y0)) ∈ points.enum := List.mk_mem_enum_iff_getElem?.mpr h0
  have hr0 := hrange _ (mem_of_mem_enum hmem)
  have hrp := hrange _ (mem_of_mem_enum hi)
  obtain ⟨pre, post, hsplit⟩ := List.append_of_mem hmem
  have hlen2 : pre.length + post.length + 1 = points.length := by
    have := congrArg List.length hsplit
    simp at this
    omega
  have hpre_mem : ∀ a ∈ pre, a ∈ points.enum := by
    intro a ha; rw [hsplit]; exact List.mem_append_left _ ha
  have hpost_mem : ∀ a ∈ post, a ∈ points.enum := by
    intro a ha; rw [hsplit]
    exact List.mem_append_right _ (List.mem_cons_of_mem _ ha)
  -- a factor with a denominator that is not zero
  have hfactor : ∀ a ∈ points.enum, i ≠ a.1 →
      ((Dbl.ofInt (wrap32 (x0 - a.2.1))).div (Dbl.ofInt (wrap32 (p.1 - a.2.1)))).Below 33 := by
    intro a ha hia
    have hra := hrange _ (mem_of_mem_enum ha)
    have hx : p.1 ≠ a.2.1 := enum_fst_ne hnd hi ha hia
    exact Dbl.factor_below _ _ (wrap32_range _) (wrap32_range _)
      (wrap32_sub_ne_zero _ _ hrp.1 hra.1 hx)
  unfold lagrangeTerm
  rw [hsplit, List.foldl_append, List.foldl_cons]
  -- the products before the factor zero are finite
  have hstart : (Dbl.ofInt p.2).Below 65 := by
    obtain ⟨m, e, h, -, hb⟩ := Dbl.ofInt_int64 p.2 (by omega)
    rw [h]
    exact hb
  have hprefix := foldl_below
    (fun term (jp : Nat × (Int × Int)) =>
      if i ≠ jp.1 then
        term.mul ((Dbl.ofInt (wrap32 (x0 - jp.2.1))).div (Dbl.ofInt (wrap32 (p.1 - jp.2.1))))
      else term) pre
    (by
      intro a ha b N hN hN2 hb
      by_cases hia : i ≠ a.1
      · simp only [if_pos hia]
        obtain ⟨s, m, e, hbf, hbb⟩ := Dbl.exists_fin_of_below b hb
        obtain ⟨t, n, f, hff, hfb⟩ := Dbl.exists_fin_of_below _ (hfactor a (hpre_mem a ha) hia)
        rw [hbf, hff]
        exact Dbl.mul_below s t m n e f N 33 (N + 34) hbb hfb (by omega) (by omega) (by omega)
      · simp only [if_neg hia]
        exact Dbl.below_mono (by omega) b hb)
    (Dbl.ofInt p.2) 65 (by norm_num) (by omega) hstart
  obtain ⟨s, m, e, hpf, -⟩ := Dbl.exists_fin_of_below _ hprefix
  rw [hpf]
  -- the factor zero
  have hden : wrap32 (p.1 - x0) ≠ 0 := by
    have hx : p.1 ≠ x0 := enum_fst_ne hnd hi hmem hne
    exact wrap32_sub_ne_zero _ _ hrp.1 hr0.1 hx
  have hzero : (if i ≠ (i0, (x0, y0)).1 then
        (Dbl.fin s m e).mul ((Dbl.ofInt (wrap32 (x0 - (i0, (x0, y0)).2.1))).div
          (Dbl.ofInt (wrap32 (p.1 - (i0, (x0, y0)).2.1))))
      else Dbl.fin s m e).IsZero := by
    rw [if_pos hne]
    simp only [wrap32_sub_self]
    obtain ⟨t, hz⟩ := Dbl.exists_fin_of_isZero _ (Dbl.factor_isZero _ (wrap32_range _) hden)
    rw [hz]
    exact Dbl.isZero_mul_right _ _ _ _ _
  -- the products after the factor zero are zeros
  refine foldl_pred _ Dbl.IsZero post ?_ _ hzero
  intro a ha b hb
  by_cases hia : i ≠ a.1
  · simp only [if_pos hia]
    obtain ⟨t, hbz⟩ := Dbl.exists_fin_of_isZero b hb
    obtain ⟨u, n, f, hff, -⟩ := Dbl.exists_fin_of_below _ (hfactor a (hpost_mem a ha) hia)
    rw [hbz, hff]
    exact Dbl.isZero_mul_left _ _ _ _ _
  · simp only [if_neg hia]
    exact hb

/-- With at most 29 points of pairwise distinct abscissas, the interpolation at
the abscissa of a point is the conversion of the ordinate of that point. -/
theorem lagrangeInterpolation_node (points : List (Int × Int)) (i0 : Nat) (x0 y0 : Int)
    (hlen : points.length ≤ 29) (hnd : (points.map Prod.fst).Nodup)
    (hrange : ∀ p ∈ points, (-2 ^ 31 ≤ p.1 ∧ p.1 < 2 ^ 31) ∧ (-2 ^ 63 ≤ p.2 ∧ p.2 < 2 ^ 63))
    (h0 : points[i0]? = some (x0, y0)) :
    lagrangeInterpolation points x0 = Dbl.ofInt y0 := by
  have hmem : (i0, (x0, y0)) ∈ points.enum := List.mk_mem_enum_iff_getElem?.mpr h0
  have hr0 := hrange _ (mem_of_mem_enum hmem)
  obtain ⟨pre, post, hsplit⟩ := List.append_of_mem hmem
  have hpre_mem : ∀ a ∈ pre, a ∈ points.enum := by
    intro a ha; rw [hsplit]; exact List.mem_append_left _ ha
  have hpost_mem : ∀ a ∈ post, a ∈ points.enum := by
    intro a ha; rw [hsplit]
    exact List.mem_append_right _ (List.mem_cons_of_mem _ ha)
  -- the indices of the other elements differ from `i0`
  have hnodup : (List.map Prod.fst (pre ++ (i0, (x0, y0)) :: post)).Nodup := by
    rw [← hsplit, List.enum_map_fst]
    exact List.nodup_range _
  rw [List.map_append, List.map_cons, List.nodup_middle, List.nodup_cons] at hnodup
  have hidx : ∀ a ∈ pre ++ post, a.1 ≠ i0 := by
    intro a ha h
    apply hnodup.1
    rw [← List.map_append, ← h]
    exact List.mem_map.mpr ⟨a, ha, rfl⟩
  have hterm : ∀ a ∈ pre ++ post, (lagrangeTerm points x0 a.1 a.2).IsZero := by
    intro a ha
    have hain : a ∈ points.enum := by
      rcases List.mem_append.mp ha with h | h
      · exact hpre_mem a h
      · exact hpost_mem a h
    exact lagrangeTerm_other points i0 x0 y0 hlen hnd hrange h0 a.1 a.2 hain (hidx a ha)
  unfold lagrangeInterpolation
  rw [hsplit, List.foldl_append, List.foldl_cons]
  rw [foldl_fixed _ Dbl.zero pre (fun a ha =>
    Dbl.zero_add_isZero _ (hterm a (List.mem_append_left _ ha)))]
  simp only [lagrangeTerm_node points i0 x0 y0 hnd hrange h0]
  rw [Dbl.zero_add_ofInt y0 (by omega)]
  exact foldl_fixed _ _ post (fun a ha =>
    Dbl.ofInt_add_isZero y0 (by omega) _ (hterm a (List.mem_append_right _ ha)))

/-! ### Exact values -/

/-- The rounding of an integer of at most 53 binary digits. -/
theorem roundToDbl_small (s : Bool) (m : Nat) (hm : m ≠ 0) (hb : bitLen m ≤ 53) :
    roundToDbl s m 0 = Dbl.fin s (m * 2 ^ (53 - bitLen m)) ((bitLen m : Int) - 53) := by
  have hp := bitLen_pos hm
  have hE : max ((0 : Int) + (bitLen m : Int) - 53) (-1074) = (bitLen m : Int) - 53 := by omega
  have hle : (bitLen m : Int) - 53 ≤ 0 := by omega
  have hsh : ((0 : Int) - ((bitLen m : Int) - 53)).toNat = 53 - bitLen m := by omega
  have hbl : bitLen (m * 2 ^ (53 - bitLen m)) = 53 := by
    rw [bitLen_mul_two_pow hm]; omega
  have hlt : m * 2 ^ (53 - bitLen m) < 2 ^ 53 := bitLen_le_iff.mp (le_of_eq hbl)
  have hne53 : m * 2 ^ (53 - bitLen m) ≠ 2 ^ 53 := by omega
  have hne0 : m * 2 ^ (53 - bitLen m) ≠ 0 := by positivity
  unfold roundToDbl
  simp only [if_neg hm, hE, if_pos hle, hsh, if_neg hne53, if_neg hne0, hbl]
  rw [if_neg (by omega)]

namespace Dbl

theorem toRat_scaled (s : Bool) (m b : Nat) (hb : b ≤ 53) :
    (fin s (m * 2 ^ (53 - b)) ((b : Int) - 53)).toRat = (if s then -1 else 1) * (m : ℚ) := by
  simp only [toRat]
  have h2 : ((2 : ℚ) ^ (53 - b)) * (2 : ℚ) ^ ((b : Int) - 53) = 1 := by
    rw [← zpow_natCast, ← zpow_add₀ (by norm_num : (2 : ℚ) ≠ 0)]
    have : (((53 - b : Nat) : Int)) + ((b : Int) - 53) = 0 := by omega
    rw [this, zpow_zero]
  push_cast
  rw [mul_assoc, mul_assoc, h2, mul_one]

/-- The conversion of an integer below `2 ^ 53` in absolute value is exact. -/
theorem toRat_ofInt (y : Int) (hy : y.natAbs < 2 ^ 53) : (ofInt y).toRat = (y : ℚ) := by
  by_cases h0 : y = 0
  · subst h0
    simp [ofInt_zero, toRat]
  · have hm : y.natAbs ≠ 0 := by omega
    have hb : bitLen y.natAbs ≤ 53 := bitLen_le_iff.mpr hy
    unfold ofInt
    rw [roundToDbl_small _ _ hm hb, toRat_scaled _ _ _ hb]
    by_cases hneg : y < 0
    · have : ((y.natAbs : Int) : ℚ) = -(y : ℚ) := by
        rw [← Int.cast_neg]; congr 1; omega
      simp only [hneg, decide_True, if_true]
      rw [← Int.cast_natCast, this]
      ring
    · have : ((y.natAbs : Int) : ℚ) = (y : ℚ) := by
        congr 1; omega
      simp only [hneg, decide_False, Bool.false_eq_true, if_false]
      rw [← Int.cast_natCast, this]
      ring

/-- The conversion to `long long` of the rounding of an integer of at most 53
binary digits. -/
theorem toInt64_roundToDbl_small (s : Bool) (q : Nat) (hq : q < 2 ^ 53) :
    (roundToDbl s q 0).toInt64 = (if s then -(q : Int) else q) := by
  by_cases h0 : q = 0
  · subst h0
    rw [roundToDbl_zero]
    have hneg : ¬ ((-1074 : Int) ≥ 0) := by norm_num
    simp only [toInt64, if_neg hneg, Nat.zero_div]
    cases s <;> simp
  · have hb : bitLen q ≤ 53 := bitLen_le_iff.mpr hq
    have hp := bitLen_pos h0
    rw [roundToDbl_small s q h0 hb]
    have hmag : (if (bitLen q : Int) - 53 ≥ 0
        then q * 2 ^ (53 - bitLen q) * 2 ^ ((bitLen q : Int) - 53).toNat
        else q * 2 ^ (53 - bitLen q) / 2 ^ (-((bitLen q : Int) - 53)).toNat) = q := by
      split_ifs with h
      · have h1 : 53 - bitLen q = 0 := by omega
        have h2 : ((bitLen q : Int) - 53).toNat = 0 := by omega
        rw [h1, h2]
        simp
      · have h2 : (-((bitLen q : Int) - 53)).toNat = 53 - bitLen q := by omega
        rw [h2]
        exact Nat.mul_div_cancel _ (by positivity)
    simp only [toInt64, hmag]
    have hq2 : (q : Int) < 2 ^ 53 := by exact_mod_cast hq
    cases s with
    | false =>
      simp only [Bool.false_eq_true, if_false]
      rw [if_pos (by omega)]
    | true =>
      simp only [if_true]
      rw [if_pos (by omega)]

theorem add_canon (a b : Dbl) : (a.add b).Canon := by
  cases a <;> cases b <;> simp only [add]
  all_goals first | trivial | skip
  all_goals split_ifs
  all_goals first | trivial | exact canon_zero _ | exact roundToDbl_canon _ _ _

end Dbl

/-- The value computed by `lagrangeInterpolation` is in canonical form. -/
theorem lagrangeInterpolation_canon (points : List (Int × Int)) (x : Int) :
    (lagrangeInterpolation points x).Canon := by
  unfold lagrangeInterpolation
  generalize points.enum = l
  induction l using List.reverseRecOn with
  | nil => exact canon_zero false
  | append_singleton l a _ =>
    rw [List.foldl_append, List.foldl_cons, List.foldl_nil]
    exact Dbl.add_canon _ _

theorem abs_scaled_le_half (sgn a t P : ℚ) (hs : sgn = 1 ∨ sgn = -1) (hP : 0 < P)
    (h1 : -P ≤ 2 * (a * P - t)) (h2 : 2 * (a * P - t) ≤ P) :
    |sgn * a - sgn * t * P⁻¹| ≤ 1 / 2 := by
  have e1 : sgn * a - sgn * t * P⁻¹ = sgn * ((a * P - t) * P⁻¹) := by
    field_simp
    ring
  have e2 : |sgn| = 1 := by
    rcases hs with hs | hs <;> rw [hs] <;> simp
  have e3 : |a * P - t| ≤ P / 2 := by
    rw [abs_le]
    constructor <;> linarith
  rw [e1, abs_mul, e2, one_mul, abs_mul, abs_of_pos (inv_pos.mpr hP)]
  rw [← div_eq_mul_inv, div_le_iff₀ hP]
  linarith

theorem signed_cast (s : Bool) (n : Nat) :
    (((if s then -(n : Int) else (n : Int)) : Int) : ℚ) = (if s then -1 else 1) * (n : ℚ) := by
  cases s <;> simp

/-- The value returned for a canonical finite `double` within the range of
`long long` is an integer at distance at most one half from it. -/
theorem round_toInt64_nearest (d : Dbl) (hc : d.Canon) (hf : d.isFinite = true)
    (hr : -2 ^ 63 ≤ d.toRat ∧ d.toRat < 2 ^ 63) :
    |((d.round.toInt64 : Int) : ℚ) - d.toRat| ≤ 1 / 2 := by
  cases d with
  | nan => simp [Dbl.isFinite] at hf
  | inf s => simp [Dbl.isFinite] at hf
  | fin s m e =>
    have hm53 : m < 2 ^ 53 := hc.1
    by_cases he : e ≥ 0
    · have hround : (Dbl.fin s m e).round = Dbl.fin s m e := by
        simp only [Dbl.round, if_pos he]
      have hpow : (2 : ℚ) ^ e = ((2 ^ e.toNat : Nat) : ℚ) := by
        have he2 : e = (e.toNat : Int) := by omega
        rw [Nat.cast_pow, ← zpow_natCast, ← he2]
        rfl
      have hvq : (((if s then -((m * 2 ^ e.toNat : Nat) : Int)
          else ((m * 2 ^ e.toNat : Nat) : Int)) : Int) : ℚ) = (Dbl.fin s m e).toRat := by
        rw [signed_cast, Dbl.toRat, hpow]
        push_cast
        ring
      have hlo : ((-2 ^ 63 : Int) : ℚ) ≤ (((if s then -((m * 2 ^ e.toNat : Nat) : Int)
          else ((m * 2 ^ e.toNat : Nat) : Int)) : Int) : ℚ) := by
        rw [hvq]
        push_cast
        exact hr.1
      have hhi : (((if s then -((m * 2 ^ e.toNat : Nat) : Int)
          else ((m * 2 ^ e.toNat : Nat) : Int)) : Int) : ℚ) < ((2 ^ 63 : Int) : ℚ) := by
        rw [hvq]
        push_cast
        exact hr.2
      have hrange : -2 ^ 63 ≤ (if s then -((m * 2 ^ e.toNat : Nat) : Int)
            else ((m * 2 ^ e.toNat : Nat) : Int))
          ∧ (if s then -((m * 2 ^ e.toNat : Nat) : Int)
            else ((m * 2 ^ e.toNat : Nat) : Int)) < 2 ^ 63 :=
        ⟨by exact_mod_cast hlo, by exact_mod_cast hhi⟩
      have ht : (Dbl.fin s m e).toInt64 = (if s then -((m * 2 ^ e.toNat : Nat) : Int)
          else ((m * 2 ^ e.toNat : Nat) : Int)) := by
        simp only [Dbl.toInt64, if_pos he]
        exact if_pos hrange
      rw [hround, ht, hvq, sub_self]
      norm_num
    · have hsh : 1 ≤ (-e).toNat := by omega
      have hpow : (2 : ℚ) ^ e = ((2 ^ (-e).toNat : Nat) : ℚ)⁻¹ := by
        have he2 : e = -((-e).toNat : Int) := by omega
        rw [Nat.cast_pow, ← zpow_natCast, ← zpow_neg, ← he2]
        rfl
      have hP2 : 2 ≤ 2 ^ (-e).toNat := by
        calc 2 = 2 ^ 1 := by norm_num
          _ ≤ 2 ^ (-e).toNat := Nat.pow_le_pow_right (by norm_num) hsh
      have hround : (Dbl.fin s m e).round
          = roundToDbl s (if 2 * (m % 2 ^ (-e).toNat) ≥ 2 ^ (-e).toNat
              then m / 2 ^ (-e).toNat + 1 else m / 2 ^ (-e).toNat) 0 := by
        simp only [Dbl.round, if_neg he]
      rw [hround]
      generalize 2 ^ (-e).toNat = P at hpow hP2
      have hdm : m / P * P + m % P = m := Nat.div_add_mod' m P
      have hrlt : m % P < P := Nat.mod_lt m (by omega)
      have hqle : m / P * 2 ≤ m := by
        have h2 : m / P * 2 ≤ m / P * P := Nat.mul_le_mul_left _ hP2
        omega
      have hsucc : (m / P + 1) * P = m / P * P + P := by ring
      generalize hq' : (if 2 * (m % P) ≥ P then m / P + 1 else m / P) = q'
      have hq53 : q' < 2 ^ 53 := by
        rw [← hq']
        split_ifs <;> omega
      have hqP : q' * P = if 2 * (m % P) ≥ P then m / P * P + P else m / P * P := by
        rw [← hq']
        split_ifs
        · exact hsucc
        · rfl
      rw [Dbl.toInt64_roundToDbl_small s q' hq53, Dbl.toRat, signed_cast, hpow]
      have hcast : ((q' : ℚ) * (P : ℚ) - (m : ℚ)) = (((q' * P : Nat) : Int) - (m : Int) : Int) := by
        push_cast
        ring
      have hint : -(P : Int) ≤ 2 * (((q' * P : Nat) : Int) - (m : Int))
          ∧ 2 * (((q' * P : Nat) : Int) - (m : Int)) ≤ (P : Int) := by
        rw [hqP]
        generalize m / P * P = QP at hdm
        split_ifs <;> constructor <;> omega
      apply abs_scaled_le_half
      · cases s <;> simp
      · exact_mod_cast (by omega : 0 < P)
      · rw [hcast]
        exact_mod_cast hint.1
      · rw [hcast]
        exact_mod_cast hint.2

/-! ### Duplicate abscissas -/

/-- A term with a denominator `x_i - x_j = 0` is infinite or NaN. -/
theorem lagrangeTerm_not_finite (points : List (Int × Int)) (x : Int) (i j : Nat)
    (p q : Int × Int) (hj : (j, q) ∈ points.enum) (hij : i ≠ j) (hx : p.1 = q.1) :
    (lagrangeTerm points x i p).isFinite = false := by
  obtain ⟨pre, post, hsplit⟩ := List.append_of_mem hj
  unfold lagrangeTerm
  rw [hsplit, List.foldl_append, List.foldl_cons]
  refine foldl_pred _ (fun (d : Dbl) => d.isFinite = false) post ?_ _ ?_
  · intro a _ b hb
    by_cases hia : i ≠ a.1
    · simp only [if_pos hia]
      exact Dbl.mul_not_finite_left _ _ hb
    · simp only [if_neg hia]
      exact hb
  · simp only [if_pos hij, hx, wrap32_sub_self, Dbl.ofInt_zero]
    exact Dbl.mul_not_finite_right _ _ (Dbl.div_zero_not_finite _ _ _)

/-- A sum with a term that is infinite or NaN is infinite or NaN. -/
theorem lagrangeInterpolation_not_finite (points : List (Int × Int)) (x : Int) (i : Nat)
    (p : Int × Int) (hi : (i, p) ∈ points.enum)
    (hterm : (lagrangeTerm points x i p).isFinite = false) :
    (lagrangeInterpolation points x).isFinite = false := by
  obtain ⟨pre, post, hsplit⟩ := List.append_of_mem hi
  unfold lagrangeInterpolation
  rw [hsplit, List.foldl_append, List.foldl_cons]
  refine foldl_pred _ (fun (d : Dbl) => d.isFinite = false) post ?_ _ ?_
  · intro a _ b hb
    exact Dbl.add_not_finite_left _ _ hb
  · exact Dbl.add_not_finite_right _ _ hterm

/-! ## The claims on duplicates, rounding and interpolation at a point -/

/-- C12 as stated fails: the points (1,1) and (3,2) have distinct `x`, the exact
Lagrange value at 0 is 1/2, and the reconstruction returns the integer 1. -/
theorem reconstruction_returns_rounded_value :
    ([((1 : Int), (1 : Int)), (3, 2)].map Prod.fst).Nodup
    ∧ lagrangeExact [(1, 1), (3, 2)] 0 = 1 / 2
    ∧ finishWith lagrangeInterpolation [(1, 1), (3, 2)] 2 = Except.ok 1
    ∧ processTestCase (mapOf [("1", "10", "1"), ("3", "10", "2")]) 2 = Except.ok 1 := by
  decide!

/-- C12 amended: for every list of `k` points whose exact Lagrange value at 0
is not an integer and whose `double` interpolation value is finite (so the `x`
are distinct) and within the range of `long long`, the reconstruction makes no
integrality test: it returns an integer, at distance at most 1/2 from that
`double`, and therefore not the exact value. -/
theorem reconstruction_rounds_to_nearest (points : List (Int × Int)) (k : Int)
    (hk : 1 ≤ k ∧ k < 2 ^ 31) (hlen : (points.length : Int) = k)
    (hnonint : (lagrangeExact points 0).den ≠ 1)
    (hfin : (lagrangeInterpolation points 0).isFinite = true)
    (hrange : -2 ^ 63 ≤ (lagrangeInterpolation points 0).toRat
      ∧ (lagrangeInterpolation points 0).toRat < 2 ^ 63) :
    ∃ v : Int, finishWith lagrangeInterpolation points k = Except.ok v
      ∧ |(v : ℚ) - (lagrangeInterpolation points 0).toRat| ≤ 1 / 2
      ∧ (v : ℚ) ≠ lagrangeExact points 0 := by
  have hmod : k % 2 ^ 64 = k := Int.emod_eq_of_lt (by omega) (by omega)
  refine ⟨(lagrangeInterpolation points 0).round.toInt64, ?_, ?_, ?_⟩
  · rw [finishWith_eq_returned, List.take_of_length_le (by omega)]
    · rfl
    · rw [hmod]
      omega
  · exact round_toInt64_nearest _ (lagrangeInterpolation_canon points 0) hfin hrange
  · intro h
    apply hnonint
    rw [← h]
    exact Rat.den_intCast _

/-- Witness of C12 amended: the points (1,1) and (3,2). -/
theorem reconstruction_rounds_to_nearest_witness :
    ∃ v : Int, finishWith lagrangeInterpolation [(1, 1), (3, 2)] 2 = Except.ok v
      ∧ |(v : ℚ) - (lagrangeInterpolation [(1, 1), (3, 2)] 0).toRat| ≤ 1 / 2
      ∧ (v : ℚ) ≠ lagrangeExact [(1, 1), (3, 2)] 0 :=
  reconstruction_rounds_to_nearest [(1, 1), (3, 2)] 2 (by decide) (by decide) (by decide!)
    (by decide!) (by decide!)

/-- C17 (fails on the code): for the single point `(0, 2^53 + 1)` the value of
`lagrangeInterpolation` at `x = 0` is the `double` `2^53`, not `y`, and
`processTestCase` returns `2^53` for the share keyed `"0"`; likewise for the
point `(1, 2^53 + 1)` at `x = 1`. -/
theorem lagrangeInterpolation_misses_point :
    (lagrangeInterpolation [(0, 9007199254740993)] 0).isFinite = true
    ∧ (lagrangeInterpolation [(0, 9007199254740993)] 0).toRat = 9007199254740992
    ∧ processTestCase [("0", "10", "9007199254740993")] 1 = Except.ok 9007199254740992
    ∧ (lagrangeInterpolation [(1, 9007199254740993)] 1).toRat = 9007199254740992 := by
  decide!

/-- For the 37 points `(0, 2^62), ..., (35, 2^62), (2^31 - 1, 5)`, of pairwise
distinct `x`, the value at `x = 2^31 - 1` is not finite: the term of the point
`(17, 2^62)` becomes infinite before it meets its factor zero, and is NaN. -/
theorem lagrangeInterpolation_overflow :
    (((List.range 36).map (fun l => ((l : Int), (2 : Int) ^ 62))
        ++ [(2 ^ 31 - 1, 5)]).map Prod.fst).Nodup
    ∧ lagrangeTerm
        ((List.range 36).map (fun l => ((l : Int), (2 : Int) ^ 62)) ++ [(2 ^ 31 - 1, 5)])
        (2 ^ 31 - 1) 17 (17, 2 ^ 62) = Dbl.nan
    ∧ (lagrangeInterpolation
        ((List.range 36).map (fun l => ((l : Int), (2 : Int) ^ 62)) ++ [(2 ^ 31 - 1, 5)])
        (2 ^ 31 - 1)).isFinite = false :=
  ⟨by decide!, by decide!,
    lagrangeInterpolation_not_finite _ _ 17 (17, 2 ^ 62) (by decide!) (by decide!)⟩

/-- For every list of at most 29 points with pairwise distinct `x` (each `x` an
`int`, each `y` a `long long`) and every index `i`, the value of
`lagrangeInterpolation` at `x_i` is `(double) y_i`, which is `y_i` itself when
`|y_i| < 2^53`; the term of `i` is `(double) y_i`, every other term is a zero,
and no denominator `x_j - x_l` is zero. -/
theorem lagrangeInterpolation_through_point (points : List (Int × Int)) (i : Nat)
    (xi yi : Int) (hlen : points.length ≤ 29) (hnd : (points.map Prod.fst).Nodup)
    (hrange : ∀ p ∈ points, (-2 ^ 31 ≤ p.1 ∧ p.1 < 2 ^ 31) ∧ (-2 ^ 63 ≤ p.2 ∧ p.2 < 2 ^ 63))
    (hi : points[i]? = some (xi, yi)) :
    lagrangeInterpolation points xi = Dbl.ofInt yi
    ∧ (yi.natAbs < 2 ^ 53 → (lagrangeInterpolation points xi).toRat = (yi : ℚ))
    ∧ lagrangeTerm points xi i (xi, yi) = Dbl.ofInt yi
    ∧ (∀ j p, (j, p) ∈ points.enum → j ≠ i → (lagrangeTerm points xi j p).IsZero)
    ∧ (∀ j l p q, (j, p) ∈ points.enum → (l, q) ∈ points.enum → j ≠ l →
        wrap32 (p.1 - q.1) ≠ 0) := by
  have hmain := lagrangeInterpolation_node points i xi yi hlen hnd hrange hi
  refine ⟨hmain, ?_, lagrangeTerm_node points i xi yi hnd hrange hi, ?_, ?_⟩
  · intro hy
    rw [hmain]
    exact Dbl.toRat_ofInt yi hy
  · intro j p hj hne
    exact lagrangeTerm_other points i xi yi hlen hnd hrange hi j p hj hne
  · intro j l p q hj hl hne
    exact wrap32_sub_ne_zero _ _ (hrange _ (mem_of_mem_enum hj)).1
      (hrange _ (mem_of_mem_enum hl)).1 (enum_fst_ne hnd hj hl hne)

/-- The points (0,5), (1,7), (2,9) at `x = 0`. -/
theorem lagrangeInterpolation_through_point_example :
    lagrangeInterpolation [(0, 5), (1, 7), (2, 9)] 0 = Dbl.ofInt 5
    ∧ (lagrangeInterpolation [(0, 5), (1, 7), (2, 9)] 0).toRat = 5 :=
  have h := lagrangeInterpolation_through_point [(0, 5), (1, 7), (2, 9)] 0 0 5 (by decide)
    (by decide) (by decide) (by decide)
  ⟨h.1, by simpa using h.2.1 (by decide)⟩

end Shamir
